import Mathlib

/-!
Shallow embedding of the `lru-cache` repository (TypeScript).

The source implements a fixed-capacity LRU cache as a JavaScript `Map`
from keys to nodes of a doubly-linked list with sentinel `head` and
`tail` nodes.  We embed the mutable node graph as a heap: a `List` of
nodes addressed by their allocation index; `null` references are
`Option.none`.  JavaScript `null`/`undefined` key and value sentinels
are modelled as `Option.none` in the `key`/`value` slots.  Each public
operation is a state transformer returning the thrown-or-returned
outcome (`Except`) together with the state after the call, which in
JavaScript persists even when an exception propagates.
-/

namespace LRU

/-- Error classes of the source `errors.ts`: the base class `LRUCacheError`
(carrying a message) and its two subclasses.  Message text interpolating
the key or the capacity is presentation, not contract; the subclass
constructors here keep the fixed part of their messages only. -/
inductive JSError where
  | lruCacheError (message : String)
  | invalidCapacityError
  | keyNotFoundError
deriving DecidableEq, Repr

/-- The `name` property set by each error class constructor. -/
def JSError.name : JSError → String
  | .lruCacheError _ => "LRUCacheError"
  | .invalidCapacityError => "InvalidCapacityError"
  | .keyNotFoundError => "KeyNotFoundError"

/-- The `message` property of an error (fixed part only; the source
interpolates the offending capacity or key into the subclass messages). -/
def JSError.message : JSError → String
  | .lruCacheError m => m
  | .invalidCapacityError => "Invalid capacity. Capacity must be a positive integer."
  | .keyNotFoundError => "Key not found"

/-- Whether an error is an `instanceof KeyNotFoundError`. -/
def JSError.isKeyNotFound : JSError → Bool
  | .keyNotFoundError => true
  | _ => false

/-- Node of the doubly-linked list (`LRUNode` in the source).  The
sentinel head/tail nodes store `null as K` / `null as V`, hence the
`Option` types; `prev`/`next` are nullable references, modelled as
heap indices. -/
structure LRUNode (K V : Type) where
  key : Option K
  value : Option V
  prev : Option Nat
  next : Option Nat
deriving DecidableEq, Repr

/-- State of an `LRUCache` object: the validated capacity, the heap of
all nodes ever allocated (eviction unlinks a node but the object model
needs no reclamation), the `Map` as an insertion-ordered association
list from key to node index, and the indices of the sentinel nodes. -/
structure LRUCache (K V : Type) where
  capacity : Nat
  heap : List (LRUNode K V)
  cache : List (K × Nat)
  head : Nat
  tail : Nat
deriving DecidableEq, Repr

variable {K V : Type}

/-- Dereference a node id.  All ids used by the operations are in range
(part of the invariant); the default is never read on reachable states. -/
def getNode (c : LRUCache K V) (i : Nat) : LRUNode K V :=
  c.heap.getD i ⟨none, none, none, none⟩

/-- Assign `node.next` (no-op if the id is out of range, which never
happens on reachable states). -/
def setNodeNext (c : LRUCache K V) (i : Nat) (nx : Option Nat) : LRUCache K V :=
  { c with heap := c.heap.set i { getNode c i with next := nx } }

/-- Assign `node.prev`. -/
def setNodePrev (c : LRUCache K V) (i : Nat) (pv : Option Nat) : LRUCache K V :=
  { c with heap := c.heap.set i { getNode c i with prev := pv } }

/-- Assign `node.value`. -/
def setNodeValue (c : LRUCache K V) (i : Nat) (v : Option V) : LRUCache K V :=
  { c with heap := c.heap.set i { getNode c i with value := v } }

/-- `Map.prototype.get`: first (and, under the invariant, only) binding
of the key. -/
def mapGet [DecidableEq K] : List (K × Nat) → K → Option Nat
  | [], _ => none
  | (k', i) :: t, k => if k' = k then some i else mapGet t k

/-- `Map.prototype.has`. -/
def mapHas [DecidableEq K] (m : List (K × Nat)) (k : K) : Bool :=
  (mapGet m k).isSome

/-- `Map.prototype.set`: update in place keeping the original insertion
position, else append. -/
def mapSet [DecidableEq K] : List (K × Nat) → K → Nat → List (K × Nat)
  | [], k, i => [(k, i)]
  | (k', j) :: t, k, i => if k' = k then (k, i) :: t else (k', j) :: mapSet t k i

/-- `Map.prototype.delete`: remove the binding of the key, if any. -/
def mapDelete [DecidableEq K] : List (K × Nat) → K → List (K × Nat)
  | [], _ => []
  | (k', j) :: t, k => if k' = k then t else (k', j) :: mapDelete t k

/-- The constructor.  `capacity` is a JavaScript number; we model the
relevant domain as `ℚ`, where `Number.isInteger` is `den = 1`.  On
success the two sentinel nodes are allocated at heap indices 0 (head)
and 1 (tail) and linked head → tail. -/
def construct (K V : Type) (capacity : ℚ) : Except JSError (LRUCache K V) :=
  if ¬ capacity.den = 1 ∨ capacity ≤ 0 then
    .error .invalidCapacityError
  else
    .ok { capacity := capacity.num.toNat
        , heap := [ { key := none, value := none, prev := none, next := some 1 }
                  , { key := none, value := none, prev := some 0, next := none } ]
        , cache := []
        , head := 0
        , tail := 1 }

/-- Private `removeNode`: defensive missing-link check, then unlink the
node by rewiring its neighbours (the node keeps its own stale links, as
in the source).  The check precedes every mutation, so the thrown case
leaves the state unchanged and the caller keeps its pre-call state. -/
def removeNode (c : LRUCache K V) (i : Nat) : Except JSError (LRUCache K V) :=
  match (getNode c i).prev, (getNode c i).next with
  | some p, some n =>
      .ok (setNodePrev (setNodeNext c p (some n)) n (some p))
  | _, _ => .error (.lruCacheError "Invalid node state: missing links")

/-- Private `addToFront`: defensive missing-head-link check, then splice
the node between `head` and `head.next`.  The source re-reads
`this.head.next` after assigning `node.prev`/`node.next`, but those
writes can only change `head.next` when `node = head` and then assign it
its own value back, so reading it once at the guard is equivalent; the
four field assignments are performed in source order. -/
def addToFront (c : LRUCache K V) (i : Nat) : Except JSError (LRUCache K V) :=
  match (getNode c c.head).next with
  | none => .error (.lruCacheError "Invalid cache state: missing head link")
  | some hn =>
      let c1 := setNodePrev c i (some c.head)
      let c2 := setNodeNext c1 i (some hn)
      let c3 := setNodePrev c2 hn (some i)
      let c4 := setNodeNext c3 c.head (some i)
      .ok c4

/-- Public `get`: `Map` lookup, throw `KeyNotFoundError` on a miss
(state untouched), else move the node to the front and return its value;
internal errors are wrapped in a plain `LRUCacheError`. -/
def get [DecidableEq K] (c : LRUCache K V) (k : K) :
    Except JSError (Option V) × LRUCache K V :=
  match mapGet c.cache k with
  | none => (.error .keyNotFoundError, c)
  | some i =>
    match removeNode c i with
    | .error e =>
        (.error (.lruCacheError ("Error accessing key: " ++ e.message)), c)
    | .ok c1 =>
      match addToFront c1 i with
      | .error e =>
          (.error (.lruCacheError ("Error accessing key: " ++ e.message)), c1)
      | .ok c2 => (.ok (getNode c2 i).value, c2)

/-- Public `getSafe` (the spec's `tryGet`): like `get`, but an
`instanceof KeyNotFoundError` failure becomes the normal result
`undefined`; any other error propagates. -/
def getSafe [DecidableEq K] (c : LRUCache K V) (k : K) :
    Except JSError (Option V) × LRUCache K V :=
  match get c k with
  | (.error .keyNotFoundError, c1) => (.ok none, c1)
  | r => r

/-- Public `put`.  A `null`/`undefined` key (`none`) throws a plain
`LRUCacheError` before any mutation.  An existing key has its node's
value replaced in place, then the node moves to the front.  A new key
allocates a node, evicts `tail.prev` when the map is at (or above)
capacity — where the source's non-null assertion `this.tail.prev!`
failing would surface as a wrapped TypeError — inserts the binding and
splices the node to the front.  Internal errors are wrapped in a plain
`LRUCacheError` and the mutations already performed persist. -/
def put [DecidableEq K] (c : LRUCache K V) (key : Option K) (value : Option V) :
    Except JSError Unit × LRUCache K V :=
  match key with
  | none => (.error (.lruCacheError "Key cannot be null or undefined"), c)
  | some k =>
    match mapGet c.cache k with
    | some i =>
      let c1 := setNodeValue c i value
      match removeNode c1 i with
      | .error e =>
          (.error (.lruCacheError ("Error putting key: " ++ e.message)), c1)
      | .ok c2 =>
        match addToFront c2 i with
        | .error e =>
            (.error (.lruCacheError ("Error putting key: " ++ e.message)), c2)
        | .ok c3 => (.ok (), c3)
    | none =>
      let newId := c.heap.length
      let c1 : LRUCache K V :=
        { c with heap := c.heap ++ [{ key := some k, value := value, prev := none, next := none }] }
      if c1.cache.length ≥ c1.capacity then
        match (getNode c1 c1.tail).prev with
        | none =>
            (.error (.lruCacheError "Error putting key: TypeError"), c1)
        | some lru =>
          match removeNode c1 lru with
          | .error e =>
              (.error (.lruCacheError ("Error putting key: " ++ e.message)), c1)
          | .ok c2 =>
            let c3 := match (getNode c2 lru).key with
                      | some lk => { c2 with cache := mapDelete c2.cache lk }
                      | none => c2
            let c4 := { c3 with cache := mapSet c3.cache k newId }
            match addToFront c4 newId with
            | .error e =>
                (.error (.lruCacheError ("Error putting key: " ++ e.message)), c4)
            | .ok c5 => (.ok (), c5)
      else
        let c4 := { c1 with cache := mapSet c1.cache k newId }
        match addToFront c4 newId with
        | .error e =>
            (.error (.lruCacheError ("Error putting key: " ++ e.message)), c4)
        | .ok c5 => (.ok (), c5)

/-- Public `size`: the `Map` size. -/
def size (c : LRUCache K V) : Nat :=
  c.cache.length

/-- Public `has`: `Map.prototype.has`; pure query, no reordering. -/
def has [DecidableEq K] (c : LRUCache K V) (k : K) : Bool :=
  mapHas c.cache k

/-- Public `clear`: empty the map and re-link head ↔ tail.  The body
cannot throw, so the `try`/`catch` of the source is not represented. -/
def clear (c : LRUCache K V) : Except JSError Unit × LRUCache K V :=
  let c1 := { c with cache := ([] : List (K × Nat)) }
  let c2 := setNodeNext c1 c1.head (some c1.tail)
  let c3 := setNodePrev c2 c2.tail (some c2.head)
  (.ok (), c3)

/-- Traversal loop of `keys`: walk `next` links from the cursor until
the tail sentinel, collecting each visited node's `key` field; a null
cursor before the tail is the defensive broken-link error.  The `while`
loop of the source would diverge on a cyclic chain avoiding `tail`;
the fuel-exhaustion error stands in for that divergence and is
unreachable on reachable states, where a fuel of `heap.length + 1`
always suffices. -/
def keysAux (c : LRUCache K V) : Nat → Option Nat → Except JSError (List (Option K))
  | 0, _ => .error (.lruCacheError "loop limit exceeded")
  | fuel + 1, cur =>
    if cur = some c.tail then .ok []
    else
      match cur with
      | none => .error (.lruCacheError "Invalid cache state: broken link in chain")
      | some i =>
        match keysAux c fuel (getNode c i).next with
        | .error e => .error e
        | .ok rest => .ok ((getNode c i).key :: rest)

/-- Public `keys`: keys most-recently-used first; errors from the
traversal are wrapped by the `catch` of the source. -/
def keys (c : LRUCache K V) : Except JSError (List (Option K)) :=
  match keysAux c (c.heap.length + 1) (getNode c c.head).next with
  | .ok l => .ok l
  | .error e => .error (.lruCacheError ("Error getting keys: " ++ e.message))

/-- One public operation, for quantifying over call sequences. -/
inductive Op (K V : Type) where
  | put (key : Option K) (value : Option V)
  | get (key : K)
  | tryGet (key : K)
  | has (key : K)
  | size
  | clear
  | keys

/-- The state after one public call (the queries `has`, `size` and
`keys` never assign to any field, so they return the state unchanged). -/
def runOp [DecidableEq K] (c : LRUCache K V) : Op K V → LRUCache K V
  | .put k v => (put c k v).2
  | .get k => (get c k).2
  | .tryGet k => (getSafe c k).2
  | .has _ => c
  | .size => c
  | .clear => (clear c).2
  | .keys => c

/-- The state after a sequence of public calls. -/
def runOps [DecidableEq K] (c : LRUCache K V) (ops : List (Op K V)) : LRUCache K V :=
  ops.foldl runOp c

/-- Adjacency in the linked list: `a.next` points to `b` and `b.prev`
points back to `a`. -/
def isLinked (c : LRUCache K V) (a b : Nat) : Prop :=
  (getNode c a).next = some b ∧ (getNode c b).prev = some a

instance (c : LRUCache K V) (a b : Nat) : Decidable (isLinked c a b) := by
  unfold isLinked; infer_instance

/-- The nodes of `l` hang off `a` as a properly doubly-linked chain. -/
def ChainL (c : LRUCache K V) : Nat → List Nat → Prop
  | _, [] => True
  | a, b :: l => isLinked c a b ∧ ChainL c b l

instance instDecChainL (c : LRUCache K V) : (a : Nat) → (l : List Nat) → Decidable (ChainL c a l)
  | _, [] => isTrue trivial
  | a, b :: l =>
    haveI : Decidable (ChainL c b l) := instDecChainL c b l
    decidable_of_iff (isLinked c a b ∧ ChainL c b l) Iff.rfl

/-- Last element of the chain `a :: xs`. -/
def endOf (a : Nat) (xs : List Nat) : Nat :=
  xs.getLastD a

/-- Well-formedness of a cache state, witnessed by the list `ks` of the
node ids of the live entries in recency order (most recent first): the
sentinels and entry nodes are distinct in-range heap slots forming one
doubly-linked chain from `head` to `tail`, the `Map` binds each live key
to exactly one entry node holding that key (the index/order bijection),
and the entry count is bounded by the capacity. -/
structure InvW [DecidableEq K] (c : LRUCache K V) (ks : List Nat) : Prop where
  capPos : 0 < c.capacity
  headLt : c.head < c.heap.length
  tailLt : c.tail < c.heap.length
  ksLt : ∀ i ∈ ks, i < c.heap.length
  nodup : (c.head :: ks ++ [c.tail]).Nodup
  chain : ChainL c c.head (ks ++ [c.tail])
  keysNodup : (c.cache.map Prod.fst).Nodup
  idsPerm : (c.cache.map Prod.snd).Perm ks
  keyCorr : ∀ p ∈ c.cache, (getNode c p.2).key = some p.1
  sizeLe : c.cache.length ≤ c.capacity

instance [DecidableEq K] (c : LRUCache K V) (ks : List Nat) : Decidable (InvW c ks) :=
  decidable_of_iff
    (0 < c.capacity ∧ c.head < c.heap.length ∧ c.tail < c.heap.length ∧
      (∀ i ∈ ks, i < c.heap.length) ∧ (c.head :: ks ++ [c.tail]).Nodup ∧
      ChainL c c.head (ks ++ [c.tail]) ∧ (c.cache.map Prod.fst).Nodup ∧
      (c.cache.map Prod.snd).Perm ks ∧
      (∀ p ∈ c.cache, (getNode c p.2).key = some p.1) ∧
      c.cache.length ≤ c.capacity)
    ⟨fun ⟨h1, h2, h3, h4, h5, h6, h7, h8, h9, h10⟩ => ⟨h1, h2, h3, h4, h5, h6, h7, h8, h9, h10⟩,
     fun h => ⟨h.capPos, h.headLt, h.tailLt, h.ksLt, h.nodup, h.chain, h.keysNodup,
               h.idsPerm, h.keyCorr, h.sizeLe⟩⟩

/-- A cache state is well formed when some recency list witnesses it. -/
def Inv [DecidableEq K] (c : LRUCache K V) : Prop :=
  ∃ ks, InvW c ks

/-- Two states agree on capacity, sentinels and heap extent. -/
def EqShape (c c' : LRUCache K V) : Prop :=
  c'.capacity = c.capacity ∧ c'.head = c.head ∧ c'.tail = c.tail ∧
    c'.heap.length = c.heap.length

/-- Two states agree on every node's key and value fields (links may
differ). -/
def EqPayload (c c' : LRUCache K V) : Prop :=
  ∀ j, (getNode c' j).key = (getNode c j).key ∧
    (getNode c' j).value = (getNode c j).value

/-! ### List indexing lemmas -/

theorem getD_set_self {α : Type} :
    ∀ (l : List α) (i : Nat) (v d : α), i < l.length → (l.set i v).getD i d = v
  | [], _, _, _, h => absurd h (by simp)
  | _ :: _, 0, _, _, _ => rfl
  | _ :: t, i + 1, v, d, h => getD_set_self t i v d (by simpa using h)

theorem getD_set_ne {α : Type} :
    ∀ (l : List α) (i j : Nat) (v d : α), j ≠ i → (l.set i v).getD j d = l.getD j d
  | [], _, _, _, _, _ => rfl
  | _ :: _, 0, 0, _, _, h => absurd rfl h
  | _ :: _, 0, _ + 1, _, _, _ => rfl
  | _ :: _, _ + 1, 0, _, _, _ => rfl
  | _ :: t, i + 1, j + 1, v, d, h => getD_set_ne t i j v d (fun hji => h (by omega))

theorem getD_append_lt {α : Type} :
    ∀ (l l2 : List α) (i : Nat) (d : α), i < l.length → (l ++ l2).getD i d = l.getD i d
  | [], _, _, _, h => absurd h (by simp)
  | _ :: _, _, 0, _, _ => rfl
  | _ :: t, l2, i + 1, d, h => getD_append_lt t l2 i d (by simpa using h)

theorem getD_append_len {α : Type} :
    ∀ (l : List α) (v d : α), (l ++ [v]).getD l.length d = v
  | [], _, _ => rfl
  | _ :: t, v, d => getD_append_len t v d

theorem headD_cons_tail {α : Type} (l : List α) (d : α) (h : l ≠ []) :
    l = l.headD d :: l.tail := by
  cases l with
  | nil => exact absurd rfl h
  | cons x t => rfl

theorem nodup_length_le (l : List Nat) (h : l.Nodup) (n : Nat)
    (hb : ∀ x ∈ l, x < n) : l.length ≤ n := by
  have h1 : l.toFinset.card = l.length := List.toFinset_card_of_nodup h
  have h2 : l.toFinset ⊆ Finset.range n := by
    intro x hx
    simp only [List.mem_toFinset] at hx
    exact Finset.mem_range.mpr (hb x hx)
  have := Finset.card_le_card h2
  simpa [h1] using this

/-! ### Setter lemmas -/

theorem heapLen_setNodeNext (c : LRUCache K V) (i : Nat) (nx : Option Nat) :
    (setNodeNext c i nx).heap.length = c.heap.length := List.length_set ..

theorem heapLen_setNodePrev (c : LRUCache K V) (i : Nat) (pv : Option Nat) :
    (setNodePrev c i pv).heap.length = c.heap.length := List.length_set ..

theorem heapLen_setNodeValue (c : LRUCache K V) (i : Nat) (v : Option V) :
    (setNodeValue c i v).heap.length = c.heap.length := List.length_set ..

theorem parts_setNodeNext (c : LRUCache K V) (i : Nat) (nx : Option Nat) :
    (setNodeNext c i nx).capacity = c.capacity ∧ (setNodeNext c i nx).head = c.head ∧
      (setNodeNext c i nx).tail = c.tail ∧ (setNodeNext c i nx).cache = c.cache :=
  ⟨rfl, rfl, rfl, rfl⟩

theorem parts_setNodePrev (c : LRUCache K V) (i : Nat) (pv : Option Nat) :
    (setNodePrev c i pv).capacity = c.capacity ∧ (setNodePrev c i pv).head = c.head ∧
      (setNodePrev c i pv).tail = c.tail ∧ (setNodePrev c i pv).cache = c.cache :=
  ⟨rfl, rfl, rfl, rfl⟩

theorem parts_setNodeValue (c : LRUCache K V) (i : Nat) (v : Option V) :
    (setNodeValue c i v).capacity = c.capacity ∧ (setNodeValue c i v).head = c.head ∧
      (setNodeValue c i v).tail = c.tail ∧ (setNodeValue c i v).cache = c.cache :=
  ⟨rfl, rfl, rfl, rfl⟩

theorem setNodeNext_oob (c : LRUCache K V) (i : Nat) (nx : Option Nat)
    (h : ¬ i < c.heap.length) : setNodeNext c i nx = c := by
  unfold setNodeNext
  cases c with
  | mk cap hp ch hd tl =>
    simp only [LRUCache.mk.injEq, and_true, true_and]
    exact List.set_eq_of_length_le (Nat.le_of_not_lt h)

theorem setNodePrev_oob (c : LRUCache K V) (i : Nat) (pv : Option Nat)
    (h : ¬ i < c.heap.length) : setNodePrev c i pv = c := by
  unfold setNodePrev
  cases c with
  | mk cap hp ch hd tl =>
    simp only [LRUCache.mk.injEq, and_true, true_and]
    exact List.set_eq_of_length_le (Nat.le_of_not_lt h)

theorem setNodeValue_oob (c : LRUCache K V) (i : Nat) (v : Option V)
    (h : ¬ i < c.heap.length) : setNodeValue c i v = c := by
  unfold setNodeValue
  cases c with
  | mk cap hp ch hd tl =>
    simp only [LRUCache.mk.injEq, and_true, true_and]
    exact List.set_eq_of_length_le (Nat.le_of_not_lt h)

theorem getNode_setNodeNext_self (c : LRUCache K V) (i : Nat) (nx : Option Nat)
    (h : i < c.heap.length) :
    getNode (setNodeNext c i nx) i = { getNode c i with next := nx } :=
  getD_set_self c.heap i _ _ h

theorem getNode_setNodeNext_ne (c : LRUCache K V) (i j : Nat) (nx : Option Nat)
    (h : j ≠ i) : getNode (setNodeNext c i nx) j = getNode c j :=
  getD_set_ne c.heap i j _ _ h

theorem getNode_setNodePrev_self (c : LRUCache K V) (i : Nat) (pv : Option Nat)
    (h : i < c.heap.length) :
    getNode (setNodePrev c i pv) i = { getNode c i with prev := pv } :=
  getD_set_self c.heap i _ _ h

theorem getNode_setNodePrev_ne (c : LRUCache K V) (i j : Nat) (pv : Option Nat)
    (h : j ≠ i) : getNode (setNodePrev c i pv) j = getNode c j :=
  getD_set_ne c.heap i j _ _ h

theorem getNode_setNodeValue_self (c : LRUCache K V) (i : Nat) (v : Option V)
    (h : i < c.heap.length) :
    getNode (setNodeValue c i v) i = { getNode c i with value := v } :=
  getD_set_self c.heap i _ _ h

theorem getNode_setNodeValue_ne (c : LRUCache K V) (i j : Nat) (v : Option V)
    (h : j ≠ i) : getNode (setNodeValue c i v) j = getNode c j :=
  getD_set_ne c.heap i j _ _ h

theorem key_setNodeNext (c : LRUCache K V) (i : Nat) (nx : Option Nat) (j : Nat) :
    (getNode (setNodeNext c i nx) j).key = (getNode c j).key := by
  by_cases hj : j = i
  · subst hj
    by_cases hi : j < c.heap.length
    · rw [getNode_setNodeNext_self c j nx hi]
    · rw [setNodeNext_oob c j nx hi]
  · rw [getNode_setNodeNext_ne c i j nx hj]

theorem value_setNodeNext (c : LRUCache K V) (i : Nat) (nx : Option Nat) (j : Nat) :
    (getNode (setNodeNext c i nx) j).value = (getNode c j).value := by
  by_cases hj : j = i
  · subst hj
    by_cases hi : j < c.heap.length
    · rw [getNode_setNodeNext_self c j nx hi]
    · rw [setNodeNext_oob c j nx hi]
  · rw [getNode_setNodeNext_ne c i j nx hj]

theorem prev_setNodeNext (c : LRUCache K V) (i : Nat) (nx : Option Nat) (j : Nat) :
    (getNode (setNodeNext c i nx) j).prev = (getNode c j).prev := by
  by_cases hj : j = i
  · subst hj
    by_cases hi : j < c.heap.length
    · rw [getNode_setNodeNext_self c j nx hi]
    · rw [setNodeNext_oob c j nx hi]
  · rw [getNode_setNodeNext_ne c i j nx hj]

theorem key_setNodePrev (c : LRUCache K V) (i : Nat) (pv : Option Nat) (j : Nat) :
    (getNode (setNodePrev c i pv) j).key = (getNode c j).key := by
  by_cases hj : j = i
  · subst hj
    by_cases hi : j < c.heap.length
    · rw [getNode_setNodePrev_self c j pv hi]
    · rw [setNodePrev_oob c j pv hi]
  · rw [getNode_setNodePrev_ne c i j pv hj]

theorem value_setNodePrev (c : LRUCache K V) (i : Nat) (pv : Option Nat) (j : Nat) :
    (getNode (setNodePrev c i pv) j).value = (getNode c j).value := by
  by_cases hj : j = i
  · subst hj
    by_cases hi : j < c.heap.length
    · rw [getNode_setNodePrev_self c j pv hi]
    · rw [setNodePrev_oob c j pv hi]
  · rw [getNode_setNodePrev_ne c i j pv hj]

theorem next_setNodePrev (c : LRUCache K V) (i : Nat) (pv : Option Nat) (j : Nat) :
    (getNode (setNodePrev c i pv) j).next = (getNode c j).next := by
  by_cases hj : j = i
  · subst hj
    by_cases hi : j < c.heap.length
    · rw [getNode_setNodePrev_self c j pv hi]
    · rw [setNodePrev_oob c j pv hi]
  · rw [getNode_setNodePrev_ne c i j pv hj]

theorem key_setNodeValue (c : LRUCache K V) (i : Nat) (v : Option V) (j : Nat) :
    (getNode (setNodeValue c i v) j).key = (getNode c j).key := by
  by_cases hj : j = i
  · subst hj
    by_cases hi : j < c.heap.length
    · rw [getNode_setNodeValue_self c j v hi]
    · rw [setNodeValue_oob c j v hi]
  · rw [getNode_setNodeValue_ne c i j v hj]

theorem prev_setNodeValue (c : LRUCache K V) (i : Nat) (v : Option V) (j : Nat) :
    (getNode (setNodeValue c i v) j).prev = (getNode c j).prev := by
  by_cases hj : j = i
  · subst hj
    by_cases hi : j < c.heap.length
    · rw [getNode_setNodeValue_self c j v hi]
    · rw [setNodeValue_oob c j v hi]
  · rw [getNode_setNodeValue_ne c i j v hj]

theorem next_setNodeValue (c : LRUCache K V) (i : Nat) (v : Option V) (j : Nat) :
    (getNode (setNodeValue c i v) j).next = (getNode c j).next := by
  by_cases hj : j = i
  · subst hj
    by_cases hi : j < c.heap.length
    · rw [getNode_setNodeValue_self c j v hi]
    · rw [setNodeValue_oob c j v hi]
  · rw [getNode_setNodeValue_ne c i j v hj]

theorem getNode_alloc_lt (c : LRUCache K V) (n : LRUNode K V) (j : Nat)
    (h : j < c.heap.length) :
    getNode { c with heap := c.heap ++ [n] } j = getNode c j :=
  getD_append_lt c.heap [n] j _ h

theorem getNode_alloc_len (c : LRUCache K V) (n : LRUNode K V) :
    getNode { c with heap := c.heap ++ [n] } c.heap.length = n :=
  getD_append_len c.heap n _

/-! ### Chain lemmas -/

theorem chainL_nil (c : LRUCache K V) (a : Nat) : ChainL c a [] := trivial

theorem chainL_cons (c : LRUCache K V) (a b : Nat) (l : List Nat) :
    ChainL c a (b :: l) ↔ isLinked c a b ∧ ChainL c b l := Iff.rfl

theorem endOf_nil (a : Nat) : endOf a [] = a := rfl

theorem endOf_cons (a b : Nat) (l : List Nat) : endOf a (b :: l) = endOf b l := by
  unfold endOf
  exact List.getLastD_cons ..

theorem endOf_mem (a : Nat) (xs : List Nat) : endOf a xs ∈ a :: xs := by
  induction xs generalizing a with
  | nil => simp [endOf_nil]
  | cons b t ih =>
    rw [endOf_cons]
    have := ih b
    simp only [List.mem_cons] at this ⊢
    tauto

theorem chainL_append (c : LRUCache K V) (a : Nat) (xs ys : List Nat) :
    ChainL c a (xs ++ ys) ↔ ChainL c a xs ∧ ChainL c (endOf a xs) ys := by
  induction xs generalizing a with
  | nil => simp [ChainL, endOf_nil]
  | cons b t ih =>
    simp only [List.cons_append, chainL_cons, endOf_cons, ih b, and_assoc]

theorem chainL_congr {c c' : LRUCache K V} :
    ∀ {a : Nat} {xs : List Nat},
      (∀ x ∈ (a :: xs).dropLast, (getNode c' x).next = (getNode c x).next) →
      (∀ x ∈ xs, (getNode c' x).prev = (getNode c x).prev) →
      ChainL c a xs → ChainL c' a xs := by
  intro a xs
  induction xs generalizing a with
  | nil => intro _ _ _; trivial
  | cons b t ih =>
    intro hnext hprev h
    obtain ⟨⟨h1, h2⟩, hrest⟩ := h
    have ha : a ∈ (a :: b :: t).dropLast := by
      rw [List.dropLast_cons₂]; exact List.mem_cons_self a _
    refine ⟨⟨?_, ?_⟩, ?_⟩
    · rw [hnext a ha]; exact h1
    · rw [hprev b (List.mem_cons_self b t)]; exact h2
    · refine ih ?_ ?_ hrest
      · intro x hx
        refine hnext x ?_
        rw [List.dropLast_cons₂]
        exact List.mem_cons_of_mem a hx
      · intro x hx
        exact hprev x (List.mem_cons_of_mem b hx)

theorem endOf_not_mem_dropLast (a : Nat) (xs : List Nat)
    (h : (a :: xs).Nodup) : endOf a xs ∉ (a :: xs).dropLast := by
  induction xs generalizing a with
  | nil => simp [endOf_nil]
  | cons b t ih =>
    rw [List.nodup_cons] at h
    rw [endOf_cons]
    have h1 : endOf b t ∉ (b :: t).dropLast := ih b h.2
    have h2 : endOf b t ∈ b :: t := endOf_mem b t
    have h3 : endOf b t ≠ a := fun he => h.1 (he ▸ h2)
    rw [List.dropLast_cons₂]
    intro hmem
    rcases List.mem_cons.mp hmem with he | hm
    · exact h3 he
    · exact h1 hm

theorem chainL_middle {c : LRUCache K V} {a : Nat} {xs : List Nat} {y : Nat}
    {ys : List Nat} (h : ChainL c a (xs ++ y :: ys)) : isLinked c (endOf a xs) y :=
  (((chainL_append c a xs (y :: ys)).mp h).2).1

/-! ### Surgery lemmas: unlink and splice on the doubly-linked chain -/

theorem removeNode_spec (c : LRUCache K V) (l r : List Nat) (i : Nat)
    (hch : ChainL c c.head (l ++ i :: (r ++ [c.tail])))
    (hnd : (c.head :: l ++ i :: (r ++ [c.tail])).Nodup)
    (hb : ∀ x ∈ c.head :: l ++ i :: (r ++ [c.tail]), x < c.heap.length) :
    ∃ c', removeNode c i = .ok c' ∧
      ChainL c' c.head (l ++ (r ++ [c.tail])) ∧
      c'.capacity = c.capacity ∧ c'.head = c.head ∧ c'.tail = c.tail ∧
      c'.cache = c.cache ∧ c'.heap.length = c.heap.length ∧
      EqPayload c c' := by
  set A : List Nat := c.head :: l with hA
  set B : List Nat := r ++ [c.tail] with hB
  have hfull : c.head :: l ++ i :: (r ++ [c.tail]) = A ++ i :: B := rfl
  rw [hfull] at hnd hb
  obtain ⟨hAnd, hiBnd, hdisj⟩ := List.nodup_append.mp hnd
  have hiB : i ∉ B := (List.nodup_cons.mp hiBnd).1
  have hBnd : B.Nodup := (List.nodup_cons.mp hiBnd).2
  -- the two neighbours of the node being removed
  set P : Nat := endOf c.head l with hPdef
  have hBne : B ≠ [] := by rw [hB]; simp
  obtain ⟨N, rest, hBcons⟩ : ∃ N rest, B = N :: rest :=
    List.exists_cons_of_ne_nil hBne
  have hPA : P ∈ A := endOf_mem c.head l
  have hPnotB : P ∉ i :: B := fun hmem => hdisj hPA hmem
  have hPi : P ≠ i := fun he => hPnotB (he ▸ List.mem_cons_self i B)
  have hPB : P ∉ B := fun hmem => hPnotB (List.mem_cons_of_mem i hmem)
  have hNB : N ∈ B := by rw [hBcons]; exact List.mem_cons_self N rest
  have hNA : N ∉ A := fun hmem => hdisj hmem (List.mem_cons_of_mem i hNB)
  have hNi : N ≠ i := fun he => hiB (he ▸ hNB)
  have hPN : P ≠ N := fun he => hPB (he ▸ hNB)
  have hNrest : N ∉ rest := by
    have hx := hBcons ▸ hBnd
    exact (List.nodup_cons.mp hx).1
  have hP : P < c.heap.length := hb P (List.mem_append_left _ hPA)
  have hN : N < c.heap.length :=
    hb N (List.mem_append_right _ (List.mem_cons_of_mem i hNB))
  -- links around the removed node
  have hlinkPi : isLinked c P i := chainL_middle hch
  have hchainsplit := (chainL_append c c.head l (i :: B)).mp hch
  have hchainI : ChainL c i B := hchainsplit.2.2
  have hchainIB : ChainL c i (N :: rest) := hBcons ▸ hchainI
  have hlinkIN : isLinked c i N := hchainIB.1
  have hchainN : ChainL c N rest := hchainIB.2
  have hprevI : (getNode c i).prev = some P := hlinkPi.2
  have hnextI : (getNode c i).next = some N := hlinkIN.1
  -- the result state
  set c2 : LRUCache K V := setNodeNext c P (some N) with hc2
  set c' : LRUCache K V := setNodePrev c2 N (some P) with hc'
  have hlen2 : c2.heap.length = c.heap.length := heapLen_setNodeNext ..
  have hlen' : c'.heap.length = c.heap.length := by
    rw [hc', heapLen_setNodePrev, hlen2]
  refine ⟨c', ?_, ?_, rfl, rfl, rfl, rfl, hlen', ?_⟩
  · unfold removeNode
    rw [hprevI, hnextI]
  · -- the chain with the node removed
    have hnexts : ∀ x, x ≠ P → (getNode c' x).next = (getNode c x).next := by
      intro x hx
      rw [hc', next_setNodePrev, hc2, getNode_setNodeNext_ne c P x _ hx]
    have hprevs : ∀ x, x ≠ N → (getNode c' x).prev = (getNode c x).prev := by
      intro x hx
      rw [hc', getNode_setNodePrev_ne c2 N x _ hx, hc2, prev_setNodeNext]
    have hchl : ChainL c' c.head l := by
      refine chainL_congr ?_ ?_ hchainsplit.1
      · intro x hx
        refine hnexts x ?_
        intro he
        refine endOf_not_mem_dropLast c.head l hAnd ?_
        rw [hPdef] at he
        rw [← he]
        exact hx
      · intro x hx
        refine hprevs x ?_
        intro he
        exact hNA (he ▸ List.mem_cons_of_mem c.head hx)
    have hlinkPN : isLinked c' P N := by
      constructor
      · rw [hc', next_setNodePrev, hc2, getNode_setNodeNext_self c P _ hP]
      · rw [hc', getNode_setNodePrev_self c2 N _ (hlen2 ▸ hN)]
    have hchN' : ChainL c' N rest := by
      refine chainL_congr ?_ ?_ hchainN
      · intro x hx
        have hxB : x ∈ B := by
          rw [hBcons]
          exact (List.dropLast_sublist (N :: rest)).mem hx
        exact hnexts x (fun he => hPB (he ▸ hxB))
      · intro x hx
        refine hprevs x ?_
        intro he
        exact hNrest (he ▸ hx)
    have hfin : ChainL c' c.head (l ++ (N :: rest)) := by
      refine (chainL_append c' c.head l (N :: rest)).mpr ⟨hchl, ?_⟩
      exact ⟨hlinkPN, hchN'⟩
    rw [hBcons]
    exact hfin
  · -- keys and values untouched
    intro j
    constructor
    · rw [hc', key_setNodePrev, hc2, key_setNodeNext]
    · rw [hc', value_setNodePrev, hc2, value_setNodeNext]

theorem addToFront_spec (c : LRUCache K V) (ks : List Nat) (i : Nat)
    (hch : ChainL c c.head (ks ++ [c.tail]))
    (hnd : (c.head :: ks ++ [c.tail]).Nodup)
    (hb : ∀ x ∈ c.head :: ks ++ [c.tail], x < c.heap.length)
    (hi : i < c.heap.length)
    (hmem : i ∉ c.head :: ks ++ [c.tail]) :
    ∃ c', addToFront c i = .ok c' ∧
      ChainL c' c.head (i :: (ks ++ [c.tail])) ∧
      c'.capacity = c.capacity ∧ c'.head = c.head ∧ c'.tail = c.tail ∧
      c'.cache = c.cache ∧ c'.heap.length = c.heap.length ∧
      EqPayload c c' := by
  set B : List Nat := ks ++ [c.tail] with hB
  have hBne : B ≠ [] := by rw [hB]; simp
  obtain ⟨F, rest, hBcons⟩ : ∃ F rest, B = F :: rest :=
    List.exists_cons_of_ne_nil hBne
  have hHB : c.head ∉ B := by
    have hx : (c.head :: B).Nodup := hnd
    exact (List.nodup_cons.mp hx).1
  have hBnd : B.Nodup := (List.nodup_cons.mp hnd).2
  have hFB : F ∈ B := by rw [hBcons]; exact List.mem_cons_self F rest
  have hiH : i ≠ c.head := fun he => hmem (he ▸ List.mem_cons_self c.head B)
  have hiB : i ∉ B := fun hmemB => hmem (List.mem_cons_of_mem c.head hmemB)
  have hiF : i ≠ F := fun he => hiB (he ▸ hFB)
  have hHF : c.head ≠ F := fun he => hHB (he ▸ hFB)
  have hFrest : F ∉ rest := by
    have hx := hBcons ▸ hBnd
    exact (List.nodup_cons.mp hx).1
  have hHrest : c.head ∉ rest := fun hmemR => by
    refine hHB ?_
    rw [hBcons]
    exact List.mem_cons_of_mem F hmemR
  have hirest : i ∉ rest := fun hmemR => by
    refine hiB ?_
    rw [hBcons]
    exact List.mem_cons_of_mem F hmemR
  have hH : c.head < c.heap.length := hb c.head (List.mem_cons_self c.head B)
  have hF : F < c.heap.length := hb F (List.mem_cons_of_mem c.head hFB)
  -- the first link out of head
  have hchB : ChainL c c.head (F :: rest) := hBcons ▸ hch
  have hlinkHF : isLinked c c.head F := hchB.1
  have hchF : ChainL c F rest := hchB.2
  have hheadnext : (getNode c c.head).next = some F := hlinkHF.1
  set c1 : LRUCache K V := setNodePrev c i (some c.head) with hc1
  set c2 : LRUCache K V := setNodeNext c1 i (some F) with hc2
  set c3 : LRUCache K V := setNodePrev c2 F (some i) with hc3
  set c4 : LRUCache K V := setNodeNext c3 c.head (some i) with hc4
  have hlen1 : c1.heap.length = c.heap.length := heapLen_setNodePrev ..
  have hlen2 : c2.heap.length = c.heap.length := by
    rw [hc2, heapLen_setNodeNext, hlen1]
  have hlen3 : c3.heap.length = c.heap.length := by
    rw [hc3, heapLen_setNodePrev, hlen2]
  have hlen4 : c4.heap.length = c.heap.length := by
    rw [hc4, heapLen_setNodeNext, hlen3]
  -- reading links in the result state
  have hnext4 : ∀ x, x ≠ c.head → x ≠ i →
      (getNode c4 x).next = (getNode c x).next := by
    intro x hx1 hx2
    rw [hc4, getNode_setNodeNext_ne c3 c.head x _ hx1, hc3, next_setNodePrev,
      hc2, getNode_setNodeNext_ne c1 i x _ hx2, hc1, next_setNodePrev]
  have hprev4 : ∀ x, x ≠ F → x ≠ i →
      (getNode c4 x).prev = (getNode c x).prev := by
    intro x hx1 hx2
    rw [hc4, prev_setNodeNext, hc3, getNode_setNodePrev_ne c2 F x _ hx1,
      hc2, prev_setNodeNext, hc1, getNode_setNodePrev_ne c i x _ hx2]
  have hiprev : (getNode c4 i).prev = some c.head := by
    rw [hc4, prev_setNodeNext, hc3, getNode_setNodePrev_ne c2 F i _ hiF,
      hc2, prev_setNodeNext, hc1, getNode_setNodePrev_self c i _ hi]
  have hinext : (getNode c4 i).next = some F := by
    rw [hc4, getNode_setNodeNext_ne c3 c.head i _ hiH, hc3, next_setNodePrev,
      hc2, getNode_setNodeNext_self c1 i _ (hlen1 ▸ hi)]
  have hheadnext4 : (getNode c4 c.head).next = some i := by
    rw [hc4, getNode_setNodeNext_self c3 c.head _ (hlen3 ▸ hH)]
  have hFprev4 : (getNode c4 F).prev = some i := by
    rw [hc4, prev_setNodeNext, hc3, getNode_setNodePrev_self c2 F _ (hlen2 ▸ hF)]
  refine ⟨c4, ?_, ?_, rfl, rfl, rfl, rfl, hlen4, ?_⟩
  · unfold addToFront
    rw [hheadnext]
  · -- the new chain: head -> i -> F -> rest
    have hchF4 : ChainL c4 F rest := by
      refine chainL_congr ?_ ?_ hchF
      · intro x hx
        have hxB : x ∈ B := by
          rw [hBcons]
          exact (List.dropLast_sublist (F :: rest)).mem hx
        exact hnext4 x (fun he => hHB (he ▸ hxB)) (fun he => hiB (he ▸ hxB))
      · intro x hx
        exact hprev4 x (fun he => hFrest (he ▸ hx)) (fun he => hirest (he ▸ hx))
    have hfin : ChainL c4 c.head (i :: (F :: rest)) :=
      ⟨⟨hheadnext4, hiprev⟩, ⟨hinext, hFprev4⟩, hchF4⟩
    rw [hBcons]
    exact hfin
  · intro j
    constructor
    · rw [hc4, key_setNodeNext, hc3, key_setNodePrev, hc2, key_setNodeNext,
        hc1, key_setNodePrev]
    · rw [hc4, value_setNodeNext, hc3, value_setNodePrev, hc2, value_setNodeNext,
        hc1, value_setNodePrev]

/-! ### Association list (JavaScript Map) lemmas -/

theorem mapGet_eq_none_iff [DecidableEq K] :
    ∀ (m : List (K × Nat)) (k : K), mapGet m k = none ↔ k ∉ m.map Prod.fst
  | [], k => by simp [mapGet]
  | (k', j) :: t, k => by
    by_cases h : k' = k
    · subst h; simp [mapGet]
    · simp only [mapGet, if_neg h, List.map_cons, List.mem_cons,
        mapGet_eq_none_iff t k]
      constructor
      · intro hn hm
        rcases hm with hm | hm
        · exact h hm.symm
        · exact hn hm
      · intro hn hm
        exact hn (Or.inr hm)

theorem mapGet_mem [DecidableEq K] :
    ∀ {m : List (K × Nat)} {k : K} {i : Nat}, mapGet m k = some i → (k, i) ∈ m := by
  intro m
  induction m with
  | nil => intro k i h; simp [mapGet] at h
  | cons p t ih =>
    intro k i h
    obtain ⟨k', j⟩ := p
    by_cases he : k' = k
    · subst he
      have hji : j = i := by simpa [mapGet] using h
      subst hji
      exact List.mem_cons_self _ _
    · simp only [mapGet, if_neg he] at h
      exact List.mem_cons_of_mem _ (ih h)

theorem mapSet_absent [DecidableEq K] :
    ∀ (m : List (K × Nat)) (k : K) (i : Nat), k ∉ m.map Prod.fst →
      mapSet m k i = m ++ [(k, i)]
  | [], _, _, _ => rfl
  | (k', j) :: t, k, i, h => by
    have hk : ¬ k' = k := by
      simp only [List.map_cons, List.mem_cons] at h
      exact fun he => h (Or.inl he.symm)
    have ht : k ∉ t.map Prod.fst := by
      simp only [List.map_cons, List.mem_cons] at h
      exact fun hm => h (Or.inr hm)
    simp only [mapSet, if_neg hk, List.cons_append, List.cons.injEq, true_and]
    exact mapSet_absent t k i ht

theorem mapGet_append_self [DecidableEq K] :
    ∀ (m : List (K × Nat)) (k : K) (i : Nat), k ∉ m.map Prod.fst →
      mapGet (m ++ [(k, i)]) k = some i
  | [], k, i, _ => by simp [mapGet]
  | (k', j) :: t, k, i, h => by
    have hk : ¬ k' = k := by
      simp only [List.map_cons, List.mem_cons] at h
      exact fun he => h (Or.inl he.symm)
    have ht : k ∉ t.map Prod.fst := by
      simp only [List.map_cons, List.mem_cons] at h
      exact fun hm => h (Or.inr hm)
    simp only [List.cons_append, mapGet, if_neg hk]
    exact mapGet_append_self t k i ht

theorem mapDelete_split [DecidableEq K] :
    ∀ (m : List (K × Nat)) (k : K) (i : Nat), (m.map Prod.fst).Nodup → (k, i) ∈ m →
      ∃ a b, m = a ++ (k, i) :: b ∧ mapDelete m k = a ++ b ∧
        k ∉ a.map Prod.fst ∧ k ∉ b.map Prod.fst
  | [], _, _, _, h => absurd h (by simp)
  | (k', j) :: t, k, i, hnd, hmem => by
    by_cases he : k' = k
    · subst he
      have hknot : k' ∉ t.map Prod.fst := by
        simpa using (List.nodup_cons.mp hnd).1
      have hcase : (k', i) = (k', j) ∨ (k', i) ∈ t := by simpa using hmem
      have hij : i = j := by
        rcases hcase with hc | hc
        · exact (Prod.mk.injEq .. ▸ hc).2
        · exact absurd (List.mem_map_of_mem Prod.fst hc) hknot
      subst hij
      exact ⟨[], t, rfl, by simp [mapDelete], by simp, hknot⟩
    · have hmem' : (k, i) ∈ t := by
        rcases List.mem_cons.mp hmem with hc | hc
        · exact absurd (congrArg Prod.fst hc).symm he
        · exact hc
      have hndt : (t.map Prod.fst).Nodup := by
        simpa using (List.nodup_cons.mp hnd).2
      obtain ⟨a, b, h1, h2, h3, h4⟩ := mapDelete_split t k i hndt hmem'
      refine ⟨(k', j) :: a, b, by rw [h1]; rfl, ?_, ?_, h4⟩
      · simp only [mapDelete, if_neg he, h2, List.cons_append]
      · simp only [List.map_cons, List.mem_cons]
        intro hc
        rcases hc with hc | hc
        · exact he hc.symm
        · exact h3 hc

theorem nodup_middle_not_mem {α : Type} (a : α) (A B : List α)
    (h : (A ++ a :: B).Nodup) : a ∉ A ++ B := by
  obtain ⟨hA, haB, hdisj⟩ := List.nodup_append.mp h
  intro hmem
  rcases List.mem_append.mp hmem with hm | hm
  · exact hdisj hm (List.mem_cons_self a B)
  · exact (List.nodup_cons.mp haB).1 hm

/-! ### Transporting the invariant across a reorder that keeps the map -/

theorem InvW_transport [DecidableEq K] {c c' : LRUCache K V} {ks ks' : List Nat}
    (hw : InvW c ks)
    (hperm : ks.Perm ks')
    (hch : ChainL c' c.head (ks' ++ [c.tail]))
    (hcache : c'.cache = c.cache)
    (hcap : c'.capacity = c.capacity) (hhd : c'.head = c.head) (htl : c'.tail = c.tail)
    (hlen : c'.heap.length = c.heap.length)
    (hkeys : ∀ j, (getNode c' j).key = (getNode c j).key) : InvW c' ks' := by
  have hfullperm : (c.head :: ks ++ [c.tail]).Perm (c.head :: ks' ++ [c.tail]) :=
    (hperm.append (List.Perm.refl [c.tail])).cons c.head
  refine ⟨?_, ?_, ?_, ?_, ?_, ?_, ?_, ?_, ?_, ?_⟩
  · rw [hcap]; exact hw.capPos
  · rw [hhd, hlen]; exact hw.headLt
  · rw [htl, hlen]; exact hw.tailLt
  · intro i hi
    rw [hlen]
    exact hw.ksLt i (hperm.mem_iff.mpr hi)
  · rw [hhd, htl]
    exact hfullperm.nodup_iff.mp hw.nodup
  · rw [hhd, htl]; exact hch
  · rw [hcache]; exact hw.keysNodup
  · rw [hcache]; exact hw.idsPerm.trans hperm
  · intro p hp
    rw [hcache] at hp
    rw [hkeys]
    exact hw.keyCorr p hp
  · rw [hcache, hcap]; exact hw.sizeLe

theorem InvW_bounds [DecidableEq K] {c : LRUCache K V} {ks : List Nat}
    (hw : InvW c ks) : ∀ x ∈ c.head :: ks ++ [c.tail], x < c.heap.length := by
  intro x hx
  rcases List.mem_cons.mp hx with he | hx2
  · subst he; exact hw.headLt
  · rcases List.mem_append.mp hx2 with hm | hm
    · exact hw.ksLt x hm
    · have he : x = c.tail := by simpa using hm
      subst he; exact hw.tailLt

/-! ### Behaviour of get on a hit -/

theorem get_hit_spec [DecidableEq K] (c : LRUCache K V) (ks : List Nat) (k : K)
    (i : Nat) (hw : InvW c ks) (hget : mapGet c.cache k = some i) :
    ∃ l r c', ks = l ++ i :: r ∧
      get c k = (.ok (getNode c i).value, c') ∧
      InvW c' (i :: (l ++ r)) ∧
      c'.cache = c.cache ∧ c'.capacity = c.capacity ∧ c'.head = c.head ∧
      c'.tail = c.tail ∧ c'.heap.length = c.heap.length ∧ EqPayload c c' := by
  have hmemc : (k, i) ∈ c.cache := mapGet_mem hget
  have hisnd : i ∈ c.cache.map Prod.snd := List.mem_map_of_mem Prod.snd hmemc
  have hiks : i ∈ ks := hw.idsPerm.mem_iff.mp hisnd
  obtain ⟨l, r, rfl⟩ := List.append_of_mem hiks
  have hball : ∀ x ∈ c.head :: (l ++ i :: r) ++ [c.tail], x < c.heap.length :=
    InvW_bounds hw
  have hch : ChainL c c.head (l ++ i :: (r ++ [c.tail])) := by
    have hx := hw.chain
    simp only [List.append_assoc, List.cons_append] at hx ⊢
    exact hx
  have hnd : (c.head :: l ++ i :: (r ++ [c.tail])).Nodup := by
    have hx := hw.nodup
    simp only [List.append_assoc, List.cons_append] at hx ⊢
    exact hx
  have hb : ∀ x ∈ c.head :: l ++ i :: (r ++ [c.tail]), x < c.heap.length := by
    intro x hx
    refine hball x ?_
    simp only [List.append_assoc, List.cons_append] at hx ⊢
    exact hx
  obtain ⟨c1, hrem, hch1, hcap1, hhd1, htl1, hcache1, hlen1, hpay1⟩ :=
    removeNode_spec c l r i hch hnd hb
  have hlink1 : ∀ j, (getNode c1 j).key = (getNode c j).key :=
    fun j => (hpay1 j).1
  -- hypotheses for splicing the node back at the front
  have hch1' : ChainL c1 c1.head ((l ++ r) ++ [c1.tail]) := by
    rw [hhd1, htl1, List.append_assoc]
    exact hch1
  have hsub : ((c.head :: (l ++ r)) ++ [c.tail]).Sublist
      ((c.head :: (l ++ i :: r)) ++ [c.tail]) := by
    refine List.Sublist.append ?_ (List.Sublist.refl [c.tail])
    exact List.Sublist.cons₂ c.head
      (List.Sublist.append_left (List.sublist_cons_self i r) l)
  have hnd1' : (c1.head :: (l ++ r) ++ [c1.tail]).Nodup := by
    rw [hhd1, htl1]
    exact hw.nodup.sublist hsub
  have hb1' : ∀ x ∈ c1.head :: (l ++ r) ++ [c1.tail], x < c1.heap.length := by
    intro x hx
    rw [hhd1, htl1] at hx
    rw [hlen1]
    exact hball x (hsub.mem hx)
  have hi1 : i < c1.heap.length := by
    rw [hlen1]
    exact hw.ksLt i hiks
  have hmem1 : i ∉ c1.head :: (l ++ r) ++ [c1.tail] := by
    rw [hhd1, htl1]
    have hx : i ∉ (c.head :: l) ++ (r ++ [c.tail]) :=
      nodup_middle_not_mem i (c.head :: l) (r ++ [c.tail]) hnd
    intro hmem
    refine hx ?_
    simp only [List.append_assoc, List.cons_append] at hmem ⊢
    exact hmem
  obtain ⟨c', hadd, hch2, hcap2, hhd2, htl2, hcache2, hlen2, hpay2⟩ :=
    addToFront_spec c1 (l ++ r) i hch1' hnd1' hb1' hi1 hmem1
  have hvi : (getNode c' i).value = (getNode c i).value :=
    (hpay2 i).2.trans (hpay1 i).2
  refine ⟨l, r, c', rfl, ?_, ?_, hcache2.trans hcache1, hcap2.trans hcap1,
    hhd2.trans hhd1, htl2.trans htl1, hlen2.trans hlen1,
    fun j => ⟨(hpay2 j).1.trans (hpay1 j).1, (hpay2 j).2.trans (hpay1 j).2⟩⟩
  · simp only [get, hget, hrem, hadd, hvi]
  · refine InvW_transport hw List.perm_middle ?_ (hcache2.trans hcache1)
      (hcap2.trans hcap1) (hhd2.trans hhd1) (htl2.trans htl1)
      (hlen2.trans hlen1) (fun j => (hpay2 j).1.trans (hpay1 j).1)
    have hx := hch2
    rw [hhd1, htl1] at hx
    simp only [List.append_assoc, List.cons_append] at hx ⊢
    exact hx

/-! ### Behaviour of put on an existing key -/

theorem put_existing_spec [DecidableEq K] (c : LRUCache K V) (ks : List Nat)
    (k : K) (i : Nat) (v : Option V) (hw : InvW c ks)
    (hget : mapGet c.cache k = some i) :
    ∃ l r c', ks = l ++ i :: r ∧
      put c (some k) v = (.ok (), c') ∧
      InvW c' (i :: (l ++ r)) ∧
      c'.cache = c.cache ∧ c'.capacity = c.capacity ∧ c'.head = c.head ∧
      c'.tail = c.tail ∧ c'.heap.length = c.heap.length ∧
      (getNode c' i).value = v ∧
      (∀ j, (getNode c' j).key = (getNode c j).key) ∧
      (∀ j, j ≠ i → (getNode c' j).value = (getNode c j).value) := by
  have hmemc : (k, i) ∈ c.cache := mapGet_mem hget
  have hisnd : i ∈ c.cache.map Prod.snd := List.mem_map_of_mem Prod.snd hmemc
  have hiks : i ∈ ks := hw.idsPerm.mem_iff.mp hisnd
  have hilen : i < c.heap.length := hw.ksLt i hiks
  obtain ⟨l, r, rfl⟩ := List.append_of_mem hiks
  have hball : ∀ x ∈ c.head :: (l ++ i :: r) ++ [c.tail], x < c.heap.length :=
    InvW_bounds hw
  -- replacing the value first: links untouched
  have hch0 : ChainL (setNodeValue c i v) c.head (l ++ i :: (r ++ [c.tail])) := by
    refine chainL_congr (fun x _ => next_setNodeValue c i v x)
      (fun x _ => prev_setNodeValue c i v x) ?_
    have hx := hw.chain
    simp only [List.append_assoc, List.cons_append] at hx ⊢
    exact hx
  have hnd : (c.head :: l ++ i :: (r ++ [c.tail])).Nodup := by
    have hx := hw.nodup
    simp only [List.append_assoc, List.cons_append] at hx ⊢
    exact hx
  have hlen0 : (setNodeValue c i v).heap.length = c.heap.length :=
    heapLen_setNodeValue ..
  have hb : ∀ x ∈ c.head :: l ++ i :: (r ++ [c.tail]),
      x < (setNodeValue c i v).heap.length := by
    intro x hx
    rw [hlen0]
    refine hball x ?_
    simp only [List.append_assoc, List.cons_append] at hx ⊢
    exact hx
  obtain ⟨c2, hrem, hch1, hcap1, hhd1, htl1, hcache1, hlen1, hpay1⟩ :=
    removeNode_spec (setNodeValue c i v) l r i hch0 hnd hb
  have hch1' : ChainL c2 c2.head ((l ++ r) ++ [c2.tail]) := by
    rw [hhd1, htl1, List.append_assoc]
    exact hch1
  have hsub : ((c.head :: (l ++ r)) ++ [c.tail]).Sublist
      ((c.head :: (l ++ i :: r)) ++ [c.tail]) := by
    refine List.Sublist.append ?_ (List.Sublist.refl [c.tail])
    exact List.Sublist.cons₂ c.head
      (List.Sublist.append_left (List.sublist_cons_self i r) l)
  have hnd1' : (c2.head :: (l ++ r) ++ [c2.tail]).Nodup := by
    rw [hhd1, htl1]
    exact hw.nodup.sublist hsub
  have hb1' : ∀ x ∈ c2.head :: (l ++ r) ++ [c2.tail], x < c2.heap.length := by
    intro x hx
    rw [hhd1, htl1] at hx
    rw [hlen1, hlen0]
    exact hball x (hsub.mem hx)
  have hi1 : i < c2.heap.length := by rw [hlen1, hlen0]; exact hilen
  have hmem1 : i ∉ c2.head :: (l ++ r) ++ [c2.tail] := by
    rw [hhd1, htl1]
    have hx : i ∉ (c.head :: l) ++ (r ++ [c.tail]) :=
      nodup_middle_not_mem i (c.head :: l) (r ++ [c.tail]) hnd
    intro hmem
    refine hx ?_
    simp only [List.append_assoc, List.cons_append] at hmem ⊢
    exact hmem
  obtain ⟨c', hadd, hch2, hcap2, hhd2, htl2, hcache2, hlen2, hpay2⟩ :=
    addToFront_spec c2 (l ++ r) i hch1' hnd1' hb1' hi1 hmem1
  have hkeys : ∀ j, (getNode c' j).key = (getNode c j).key := by
    intro j
    rw [(hpay2 j).1, (hpay1 j).1, key_setNodeValue]
  refine ⟨l, r, c', rfl, ?_, ?_, hcache2.trans hcache1, hcap2.trans hcap1,
    hhd2.trans hhd1, htl2.trans htl1, (hlen2.trans hlen1).trans hlen0, ?_,
    hkeys, ?_⟩
  · simp only [put, hget, hrem, hadd]
  · refine InvW_transport hw List.perm_middle ?_ (hcache2.trans hcache1)
      (hcap2.trans hcap1) (hhd2.trans hhd1) (htl2.trans htl1)
      ((hlen2.trans hlen1).trans hlen0) hkeys
    have hx := hch2
    rw [hhd1, htl1] at hx
    simp only [List.append_assoc, List.cons_append] at hx ⊢
    exact hx
  · rw [(hpay2 i).2, (hpay1 i).2,
      getNode_setNodeValue_self c i v hilen]
  · intro j hj
    rw [(hpay2 j).2, (hpay1 j).2, getNode_setNodeValue_ne c i j v hj]

/-! ### Behaviour of put on a new key -/

theorem getNode_of_heap_append {c c' : LRUCache K V} {n : LRUNode K V}
    (h : c'.heap = c.heap ++ [n]) (j : Nat) (hj : j < c.heap.length) :
    getNode c' j = getNode c j := by
  unfold getNode
  rw [h]
  exact getD_append_lt c.heap [n] j _ hj

theorem getNode_of_heap_append_len {c c' : LRUCache K V} {n : LRUNode K V}
    (h : c'.heap = c.heap ++ [n]) : getNode c' c.heap.length = n := by
  unfold getNode
  rw [h]
  exact getD_append_len c.heap n _

theorem put_new_noevict_spec [DecidableEq K] (c : LRUCache K V) (ks : List Nat)
    (k : K) (v : Option V) (hw : InvW c ks) (hget : mapGet c.cache k = none)
    (hlt : c.cache.length < c.capacity) :
    ∃ c', put c (some k) v = (.ok (), c') ∧
      InvW c' (c.heap.length :: ks) ∧
      c'.cache = c.cache ++ [(k, c.heap.length)] ∧
      c'.capacity = c.capacity ∧ c'.head = c.head ∧ c'.tail = c.tail ∧
      c'.heap.length = c.heap.length + 1 ∧
      (getNode c' c.heap.length).key = some k ∧
      (getNode c' c.heap.length).value = v ∧
      (∀ j, j < c.heap.length → (getNode c' j).key = (getNode c j).key ∧
        (getNode c' j).value = (getNode c j).value) := by
  have hknot : k ∉ c.cache.map Prod.fst := (mapGet_eq_none_iff c.cache k).mp hget
  have hball : ∀ x ∈ c.head :: ks ++ [c.tail], x < c.heap.length := InvW_bounds hw
  set newId : Nat := c.heap.length with hnewId
  set nd : LRUNode K V := { key := some k, value := v, prev := none, next := none }
    with hnd
  set c4 : LRUCache K V :=
    { c with heap := c.heap ++ [nd],
             cache := mapSet c.cache k newId } with hc4
  have hc4heap : c4.heap = c.heap ++ [nd] := rfl
  have hc4cache : c4.cache = c.cache ++ [(k, newId)] := by
    rw [hc4]
    exact mapSet_absent c.cache k newId hknot
  have hlen4 : c4.heap.length = c.heap.length + 1 := by
    rw [hc4heap, List.length_append, List.length_cons, List.length_nil]
  have hget4lt : ∀ j, j < c.heap.length → getNode c4 j = getNode c j :=
    fun j hj => getNode_of_heap_append hc4heap j hj
  have hget4new : getNode c4 newId = nd := getNode_of_heap_append_len hc4heap
  -- splice the fresh node at the front of the old chain
  have hch4 : ChainL c4 c4.head (ks ++ [c4.tail]) := by
    refine chainL_congr ?_ ?_ hw.chain
    · intro x hx
      have hxm : x ∈ c.head :: ks ++ [c.tail] :=
        (List.dropLast_sublist _).mem hx
      rw [hget4lt x (hball x hxm)]
    · intro x hx
      have hxm : x ∈ c.head :: ks ++ [c.tail] :=
        List.mem_cons_of_mem c.head hx
      rw [hget4lt x (hball x hxm)]
  have hnd4 : (c4.head :: ks ++ [c4.tail]).Nodup := hw.nodup
  have hb4 : ∀ x ∈ c4.head :: ks ++ [c4.tail], x < c4.heap.length := by
    intro x hx
    rw [hlen4]
    exact Nat.lt_succ_of_lt (hball x hx)
  have hi4 : newId < c4.heap.length := by rw [hlen4, hnewId]; exact Nat.lt_succ_self _
  have hmem4 : newId ∉ c4.head :: ks ++ [c4.tail] := by
    intro hmem
    exact absurd (hball newId hmem) (Nat.lt_irrefl _)
  obtain ⟨c', hadd, hch2, hcap2, hhd2, htl2, hcache2, hlen2, hpay2⟩ :=
    addToFront_spec c4 ks newId hch4 hnd4 hb4 hi4 hmem4
  have hckey : (getNode c' newId).key = some k := by
    rw [(hpay2 newId).1, hget4new]
  have hcval : (getNode c' newId).value = v := by
    rw [(hpay2 newId).2, hget4new]
  have hcondneg : ¬ c.cache.length ≥ c.capacity := Nat.not_le_of_lt hlt
  refine ⟨c', ?_, ?_, hcache2.trans hc4cache, hcap2, hhd2, htl2,
    hlen2.trans hlen4, hckey, hcval, ?_⟩
  · -- reduce the body of put
    simp only [put, hget]
    rw [if_neg hcondneg, hadd]
  · -- the invariant for the extended cache
    have hfresh : newId ∉ c.head :: ks ++ [c.tail] := hmem4
    refine ⟨?_, ?_, ?_, ?_, ?_, ?_, ?_, ?_, ?_, ?_⟩
    · rw [hcap2]; exact hw.capPos
    · rw [hhd2, hlen2.trans hlen4]
      exact Nat.lt_succ_of_lt hw.headLt
    · rw [htl2, hlen2.trans hlen4]
      exact Nat.lt_succ_of_lt hw.tailLt
    · intro x hx
      rw [hlen2.trans hlen4]
      rcases List.mem_cons.mp hx with he | hm
      · subst he; exact Nat.lt_succ_self _
      · exact Nat.lt_succ_of_lt (hw.ksLt x hm)
    · rw [hhd2, htl2]
      have hswap : (c.head :: (newId :: ks) ++ [c.tail]).Perm
          (newId :: (c.head :: ks ++ [c.tail])) := by
        exact List.Perm.swap newId c.head _
      refine hswap.nodup_iff.mpr ?_
      exact List.nodup_cons.mpr ⟨hfresh, hw.nodup⟩
    · rw [hhd2, htl2]
      exact hch2
    · rw [hcache2.trans hc4cache, List.map_append]
      refine List.nodup_append.mpr ⟨hw.keysNodup, by simp, ?_⟩
      intro x hx hx2
      have hxk : x = k := by simpa using hx2
      exact hknot (hxk ▸ hx)
    · rw [hcache2.trans hc4cache, List.map_append]
      have h1 : (c.cache.map Prod.snd ++ [newId]).Perm
          (newId :: c.cache.map Prod.snd) := List.perm_append_singleton ..
      exact h1.trans (hw.idsPerm.cons newId)
    · intro p hp
      rw [hcache2.trans hc4cache] at hp
      rcases List.mem_append.mp hp with hm | hm
      · have hsnd : p.2 ∈ c.cache.map Prod.snd := List.mem_map_of_mem Prod.snd hm
        have hks : p.2 ∈ ks := hw.idsPerm.mem_iff.mp hsnd
        rw [(hpay2 p.2).1, hget4lt p.2 (hw.ksLt p.2 hks)]
        exact hw.keyCorr p hm
      · have hpk : p = (k, newId) := by simpa using hm
        rw [hpk]
        exact hckey
    · rw [hcache2.trans hc4cache, hcap2, List.length_append]
      simpa using hlt
  · intro j hj
    constructor
    · rw [(hpay2 j).1, hget4lt j hj]
    · rw [(hpay2 j).2, hget4lt j hj]

theorem getNode_heap_eq {c c' : LRUCache K V} (h : c'.heap = c.heap) (j : Nat) :
    getNode c' j = getNode c j := by
  unfold getNode
  rw [h]

theorem chainL_heap_eq {c c' : LRUCache K V} (h : c'.heap = c.heap) {a : Nat}
    {xs : List Nat} (hch : ChainL c a xs) : ChainL c' a xs := by
  refine chainL_congr ?_ ?_ hch
  · intro x _
    rw [getNode_heap_eq h]
  · intro x _
    rw [getNode_heap_eq h]

theorem put_new_evict_spec [DecidableEq K] (c : LRUCache K V) (ks : List Nat)
    (k : K) (v : Option V) (hw : InvW c ks) (hget : mapGet c.cache k = none)
    (hge : c.cache.length ≥ c.capacity) :
    ∃ ks₀ lruId lk a b c', ks = ks₀ ++ [lruId] ∧
      (getNode c lruId).key = some lk ∧
      c.cache = a ++ (lk, lruId) :: b ∧
      put c (some k) v = (.ok (), c') ∧
      InvW c' (c.heap.length :: ks₀) ∧
      c'.cache = (a ++ b) ++ [(k, c.heap.length)] ∧
      c'.capacity = c.capacity ∧ c'.head = c.head ∧ c'.tail = c.tail ∧
      c'.heap.length = c.heap.length + 1 ∧
      (getNode c' c.heap.length).key = some k ∧
      (getNode c' c.heap.length).value = v ∧
      (∀ j, j < c.heap.length → (getNode c' j).key = (getNode c j).key ∧
        (getNode c' j).value = (getNode c j).value) ∧
      c'.cache.length = c.cache.length := by
  have hknot : k ∉ c.cache.map Prod.fst := (mapGet_eq_none_iff c.cache k).mp hget
  have hball : ∀ x ∈ c.head :: ks ++ [c.tail], x < c.heap.length := InvW_bounds hw
  -- the cache is exactly full и nonempty
  have hlenks : c.cache.length = ks.length := by
    have h1 : (c.cache.map Prod.snd).length = ks.length := hw.idsPerm.length_eq
    simpa using h1
  have hksne : ks ≠ [] := by
    intro he
    rw [he] at hlenks
    simp only [List.length_nil] at hlenks
    have h1 := hw.sizeLe
    have h2 := hw.capPos
    omega
  obtain ⟨ks₀, lruId, hks⟩ : ∃ ks₀ lruId, ks = ks₀ ++ [lruId] :=
    ⟨ks.dropLast, ks.getLast hksne, (List.dropLast_append_getLast hksne).symm⟩
  subst hks
  have hlruks : lruId ∈ ks₀ ++ [lruId] := List.mem_append_right _ (by simp)
  have hlrulen : lruId < c.heap.length := hw.ksLt lruId hlruks
  -- the back link: tail.prev is the LRU node
  have hch0 : ChainL c c.head (ks₀ ++ (lruId :: [c.tail])) := by
    have hx := hw.chain
    simp only [List.append_assoc, List.cons_append, List.nil_append] at hx ⊢
    exact hx
  have hlinkLT : isLinked c lruId c.tail :=
    (((chainL_append c c.head ks₀ (lruId :: [c.tail])).mp hch0).2).2.1
  have htailprev : (getNode c c.tail).prev = some lruId := hlinkLT.2
  -- allocate the fresh node
  set nd : LRUNode K V := { key := some k, value := v, prev := none, next := none }
    with hnddef
  set c1 : LRUCache K V := { c with heap := c.heap ++ [nd] } with hc1def
  have hc1heap : c1.heap = c.heap ++ [nd] := rfl
  have hlen1 : c1.heap.length = c.heap.length + 1 := by
    rw [hc1heap]; simp
  have hget1lt : ∀ j, j < c.heap.length → getNode c1 j = getNode c j :=
    fun j hj => getNode_of_heap_append hc1heap j hj
  have hget1new : getNode c1 c.heap.length = nd := getNode_of_heap_append_len hc1heap
  have htailprev1 : (getNode c1 c1.tail).prev = some lruId := by
    have he : c1.tail = c.tail := rfl
    rw [he, hget1lt c.tail hw.tailLt, htailprev]
  -- unlink the LRU node
  have hball' : ∀ x ∈ c.head :: ks₀ ++ lruId :: [c.tail], x < c.heap.length := by
    intro x hx
    refine hball x ?_
    simp only [List.append_assoc, List.cons_append, List.nil_append] at hx ⊢
    exact hx
  have hch1 : ChainL c1 c1.head (ks₀ ++ lruId :: ([] ++ [c1.tail])) := by
    simp only [List.nil_append]
    refine chainL_congr ?_ ?_ hch0
    · intro x hx
      have hxm : x ∈ c.head :: ks₀ ++ lruId :: [c.tail] :=
        (List.dropLast_sublist _).mem hx
      rw [hget1lt x (hball' x hxm)]
    · intro x hx
      have hxm : x ∈ c.head :: ks₀ ++ lruId :: [c.tail] :=
        List.mem_cons_of_mem c.head hx
      rw [hget1lt x (hball' x hxm)]
  have hnd1 : (c1.head :: ks₀ ++ lruId :: ([] ++ [c1.tail])).Nodup := by
    simp only [List.nil_append]
    have hx := hw.nodup
    simp only [List.append_assoc, List.cons_append, List.nil_append] at hx ⊢
    exact hx
  have hb1 : ∀ x ∈ c1.head :: ks₀ ++ lruId :: ([] ++ [c1.tail]),
      x < c1.heap.length := by
    intro x hx
    rw [hlen1]
    refine Nat.lt_succ_of_lt (hball' x ?_)
    simp only [List.nil_append] at hx
    exact hx
  obtain ⟨c2, hrem, hch2, hcap2, hhd2, htl2, hcache2, hlen2, hpay2⟩ :=
    removeNode_spec c1 ks₀ [] lruId hch1 hnd1 hb1
  -- the key bound to the LRU node
  obtain ⟨p, hpmem, hpsnd⟩ : ∃ p ∈ c.cache, p.2 = lruId := by
    have hsnd : lruId ∈ c.cache.map Prod.snd := hw.idsPerm.mem_iff.mpr hlruks
    obtain ⟨p, hp, he⟩ := List.mem_map.mp hsnd
    exact ⟨p, hp, he⟩
  set lk : K := p.1 with hlkdef
  have hpmem2 : (lk, lruId) ∈ c.cache := by
    have hpe : (lk, lruId) = p := by
      rw [hlkdef, ← hpsnd]
    rw [hpe]
    exact hpmem
  have hkeylru : (getNode c lruId).key = some lk := by
    have hx := hw.keyCorr p hpmem
    rw [hpsnd] at hx
    exact hx
  have hkey2 : (getNode c2 lruId).key = some lk := by
    rw [(hpay2 lruId).1, hget1lt lruId hlrulen, hkeylru]
  -- delete the evicted binding, insert the new one
  obtain ⟨a, b, hcacheab, hdel, hlknota, hlknotb⟩ :=
    mapDelete_split c.cache lk lruId hw.keysNodup hpmem2
  have hc1cache : c1.cache = c.cache := rfl
  have hknotab : k ∉ (a ++ b).map Prod.fst := by
    intro hmem
    refine hknot ?_
    rw [hcacheab]
    simp only [List.map_append] at hmem ⊢
    rcases List.mem_append.mp hmem with hm | hm
    · exact List.mem_append_left _ hm
    · refine List.mem_append_right _ ?_
      simp only [List.map_cons]
      exact List.mem_cons_of_mem _ hm
  set c4 : LRUCache K V :=
    { c2 with cache := mapSet (mapDelete c2.cache lk) k c.heap.length }
    with hc4def
  have hc4cache : c4.cache = (a ++ b) ++ [(k, c.heap.length)] := by
    show mapSet (mapDelete c2.cache lk) k c.heap.length = _
    rw [hcache2, hc1cache, hdel]
    exact mapSet_absent (a ++ b) k _ hknotab
  have hc4hd : c4.head = c.head := hhd2
  have hc4tl : c4.tail = c.tail := htl2
  have hc4cap : c4.capacity = c.capacity := hcap2
  have hc4len : c4.heap.length = c.heap.length + 1 := hlen2.trans hlen1
  have hget4eq : ∀ j, getNode c4 j = getNode c2 j := getNode_heap_eq rfl
  -- splice the fresh node at the front
  have hsub4 : ((c.head :: ks₀) ++ [c.tail]).Sublist
      ((c.head :: (ks₀ ++ [lruId])) ++ [c.tail]) :=
    List.Sublist.append
      (List.Sublist.cons₂ c.head (List.sublist_append_left ks₀ [lruId]))
      (List.Sublist.refl [c.tail])
  have hch4 : ChainL c4 c4.head (ks₀ ++ [c4.tail]) := by
    rw [hc4hd, hc4tl]
    have hx : ChainL c2 c.head (ks₀ ++ [c.tail]) := by
      have h2 := hch2
      simp only [List.nil_append] at h2
      exact h2
    exact chainL_heap_eq (show c4.heap = c2.heap from rfl) hx
  have hnd4 : (c4.head :: ks₀ ++ [c4.tail]).Nodup := by
    rw [hc4hd, hc4tl]
    exact hw.nodup.sublist hsub4
  have hb4 : ∀ x ∈ c4.head :: ks₀ ++ [c4.tail], x < c4.heap.length := by
    intro x hx
    rw [hc4hd, hc4tl] at hx
    rw [hc4len]
    exact Nat.lt_succ_of_lt (hball x (hsub4.mem hx))
  have hi4 : c.heap.length < c4.heap.length := by
    rw [hc4len]
    exact Nat.lt_succ_self _
  have hmem4 : c.heap.length ∉ c4.head :: ks₀ ++ [c4.tail] := by
    rw [hc4hd, hc4tl]
    intro hm
    exact absurd (hball _ (hsub4.mem hm)) (Nat.lt_irrefl _)
  obtain ⟨c', hadd, hch5, hcap5, hhd5, htl5, hcache5, hlen5, hpay5⟩ :=
    addToFront_spec c4 ks₀ c.heap.length hch4 hnd4 hb4 hi4 hmem4
  -- assembled facts about the final state
  have hhdall : c'.head = c.head := hhd5.trans hc4hd
  have htlall : c'.tail = c.tail := htl5.trans hc4tl
  have hcapall : c'.capacity = c.capacity := hcap5.trans hc4cap
  have hlenall : c'.heap.length = c.heap.length + 1 := hlen5.trans hc4len
  have hcacheall : c'.cache = (a ++ b) ++ [(k, c.heap.length)] :=
    hcache5.trans hc4cache
  have hckey : (getNode c' c.heap.length).key = some k := by
    rw [(hpay5 _).1, hget4eq, (hpay2 _).1, hget1new]
  have hcval : (getNode c' c.heap.length).value = v := by
    rw [(hpay5 _).2, hget4eq, (hpay2 _).2, hget1new]
  have hpres : ∀ j, j < c.heap.length → (getNode c' j).key = (getNode c j).key ∧
      (getNode c' j).value = (getNode c j).value := by
    intro j hj
    constructor
    · rw [(hpay5 j).1, hget4eq, (hpay2 j).1, hget1lt j hj]
    · rw [(hpay5 j).2, hget4eq, (hpay2 j).2, hget1lt j hj]
  have hcachelen : c.cache.length = a.length + b.length + 1 := by
    rw [hcacheab]
    simp
    omega
  -- the permutation of ids after delete and insert
  have hsndperm : ((a ++ b).map Prod.snd).Perm ks₀ := by
    have h1 : (c.cache.map Prod.snd).Perm
        (lruId :: (a ++ b).map Prod.snd) := by
      rw [hcacheab]
      simp only [List.map_append, List.map_cons]
      exact List.perm_middle
    have h2 : (ks₀ ++ [lruId]).Perm (lruId :: ks₀) := List.perm_append_singleton ..
    have h3 : (lruId :: (a ++ b).map Prod.snd).Perm (lruId :: ks₀) :=
      (h1.symm.trans hw.idsPerm).trans h2
    exact h3.cons_inv
  have hfresh : c.heap.length ∉ c.head :: ks₀ ++ [c.tail] := by
    intro hm
    exact absurd (hball _ (hsub4.mem hm)) (Nat.lt_irrefl _)
  refine ⟨ks₀, lruId, lk, a, b, c', rfl, hkeylru, hcacheab, ?_, ?_, hcacheall,
    hcapall, hhdall, htlall, hlenall, hckey, hcval, hpres, ?_⟩
  · -- reduce the body of put
    simp only [put, hget]
    rw [if_pos hge, htailprev1]
    simp only [hrem, hkey2, hadd]
  · -- the invariant after eviction and insertion
    refine ⟨?_, ?_, ?_, ?_, ?_, ?_, ?_, ?_, ?_, ?_⟩
    · rw [hcapall]; exact hw.capPos
    · rw [hhdall, hlenall]; exact Nat.lt_succ_of_lt hw.headLt
    · rw [htlall, hlenall]; exact Nat.lt_succ_of_lt hw.tailLt
    · intro x hx
      rw [hlenall]
      rcases List.mem_cons.mp hx with he | hm
      · subst he; exact Nat.lt_succ_self _
      · exact Nat.lt_succ_of_lt (hw.ksLt x (List.mem_append_left _ hm))
    · rw [hhdall, htlall]
      have hswap : (c.head :: (c.heap.length :: ks₀) ++ [c.tail]).Perm
          (c.heap.length :: (c.head :: ks₀ ++ [c.tail])) :=
        List.Perm.swap c.heap.length c.head _
      refine hswap.nodup_iff.mpr ?_
      exact List.nodup_cons.mpr ⟨hfresh, hw.nodup.sublist hsub4⟩
    · rw [hhdall, htlall]
      have hx := hch5
      rw [hc4hd, hc4tl] at hx
      exact hx
    · rw [hcacheall, List.map_append]
      refine List.nodup_append.mpr ⟨?_, by simp, ?_⟩
      · have hsubk : ((a ++ b).map Prod.fst).Sublist
            (c.cache.map Prod.fst) := by
          rw [hcacheab]
          simp only [List.map_append, List.map_cons]
          exact List.Sublist.append_left (List.sublist_cons_self lk _) _
        exact hw.keysNodup.sublist hsubk
      · intro x hx hx2
        have hxk : x = k := by simpa using hx2
        exact hknotab (hxk ▸ hx)
    · rw [hcacheall, List.map_append]
      have h1 : ((a ++ b).map Prod.snd ++ [c.heap.length]).Perm
          (c.heap.length :: (a ++ b).map Prod.snd) := List.perm_append_singleton ..
      exact h1.trans (hsndperm.cons _)
    · intro q hq
      rw [hcacheall] at hq
      rcases List.mem_append.mp hq with hm | hm
      · have hqc : q ∈ c.cache := by
          rw [hcacheab]
          rcases List.mem_append.mp hm with hm2 | hm2
          · exact List.mem_append_left _ hm2
          · exact List.mem_append_right _ (List.mem_cons_of_mem _ hm2)
        have hsnd : q.2 ∈ c.cache.map Prod.snd := List.mem_map_of_mem Prod.snd hqc
        have hks : q.2 ∈ ks₀ ++ [lruId] := hw.idsPerm.mem_iff.mp hsnd
        rw [(hpres q.2 (hw.ksLt q.2 hks)).1]
        exact hw.keyCorr q hqc
      · have hqk : q = (k, c.heap.length) := by simpa using hm
        rw [hqk]
        exact hckey
    · rw [hcacheall, hcapall]
      have h1 : ((a ++ b) ++ [(k, c.heap.length)]).length =
          a.length + b.length + 1 := by simp; omega
      rw [h1, ← hcachelen]
      exact hw.sizeLe
  · rw [hcacheall, hcachelen]
    simp
    omega

/-! ### Behaviour of keys -/

theorem keysAux_ok (c : LRUCache K V) :
    ∀ (ks : List Nat) (fuel x : Nat),
      ChainL c x (ks ++ [c.tail]) → x ≠ c.tail → c.tail ∉ ks →
      ks.length + 2 ≤ fuel →
      keysAux c fuel (some x) = .ok ((x :: ks).map (fun i => (getNode c i).key)) := by
  intro ks
  induction ks with
  | nil =>
    intro fuel x hch hx _ hfuel
    obtain ⟨f, rfl⟩ : ∃ f, fuel = f + 2 := ⟨fuel - 2, by omega⟩
    have hnext : (getNode c x).next = some c.tail := by
      have h1 : isLinked c x c.tail := (by simpa using hch : ChainL c x [c.tail]).1
      exact h1.1
    have hne : ¬ (some x = some c.tail) := by simpa using hx
    show keysAux c (f + 1 + 1) (some x) = _
    simp only [keysAux, if_neg hne, hnext, if_pos rfl]
    rfl
  | cons y t ih =>
    intro fuel x hch hx htail hfuel
    obtain ⟨f, rfl⟩ : ∃ f, fuel = f + 1 := ⟨fuel - 1, by omega⟩
    have hch' : ChainL c x (y :: (t ++ [c.tail])) := by simpa using hch
    have hnext : (getNode c x).next = some y := hch'.1.1
    have hne : ¬ (some x = some c.tail) := by simpa using hx
    have hytail : y ≠ c.tail := by
      intro he
      exact htail (he ▸ List.mem_cons_self y t)
    have httail : c.tail ∉ t := fun hm => htail (List.mem_cons_of_mem y hm)
    have hihy := ih f y hch'.2 hytail httail (by
      simp only [List.length_cons] at hfuel
      omega)
    show keysAux c (f + 1) (some x) = _
    simp only [keysAux, if_neg hne, hnext, hihy]
    rfl

theorem keys_spec [DecidableEq K] (c : LRUCache K V) (ks : List Nat)
    (hw : InvW c ks) :
    keys c = .ok (ks.map (fun i => (getNode c i).key)) := by
  have hkstail : (ks ++ [c.tail]).Nodup := (List.nodup_cons.mp hw.nodup).2
  have htailks : c.tail ∉ ks := by
    have hx := nodup_middle_not_mem c.tail ks [] (by simpa using hkstail)
    simpa using hx
  have hlenle : ks.length + 2 ≤ c.heap.length + 1 := by
    have hnd := hw.nodup
    have hble := nodup_length_le _ hnd c.heap.length (InvW_bounds hw)
    simp only [List.length_cons, List.length_append, List.length_cons,
      List.length_nil] at hble
    omega
  cases ks with
  | nil =>
    have hnext : (getNode c c.head).next = some c.tail := by
      have h1 : isLinked c c.head c.tail :=
        (by simpa using hw.chain : ChainL c c.head [c.tail]).1
      exact h1.1
    show keys c = .ok []
    unfold keys
    rw [hnext]
    simp [keysAux]
  | cons y t =>
    have hch' : ChainL c c.head (y :: (t ++ [c.tail])) := by
      simpa using hw.chain
    have hnext : (getNode c c.head).next = some y := hch'.1.1
    have hytail : y ≠ c.tail := by
      intro he
      exact htailks (he ▸ List.mem_cons_self y t)
    have httail : c.tail ∉ t := fun hm => htailks (List.mem_cons_of_mem y hm)
    have haux := keysAux_ok c t (c.heap.length + 1) y hch'.2 hytail httail (by
      simp only [List.length_cons] at hlenle
      omega)
    unfold keys
    rw [hnext, haux]

/-! ### Miss behaviour and the safe variant -/

theorem get_miss_eq [DecidableEq K] (c : LRUCache K V) (k : K)
    (hget : mapGet c.cache k = none) :
    get c k = (.error .keyNotFoundError, c) := by
  simp only [get, hget]

theorem getSafe_miss_eq [DecidableEq K] (c : LRUCache K V) (k : K)
    (hget : mapGet c.cache k = none) : getSafe c k = (.ok none, c) := by
  simp only [getSafe, get_miss_eq c k hget]

theorem getSafe_of_get_ok [DecidableEq K] (c c' : LRUCache K V) (k : K)
    (v : Option V) (h : get c k = (.ok v, c')) : getSafe c k = (.ok v, c') := by
  simp only [getSafe, h]

/-! ### Behaviour of clear -/

theorem clear_spec [DecidableEq K] (c : LRUCache K V) (ks : List Nat)
    (hw : InvW c ks) :
    ∃ c', clear c = (.ok (), c') ∧ InvW c' ([] : List Nat) ∧ c'.cache = [] ∧
      c'.capacity = c.capacity ∧ c'.head = c.head ∧ c'.tail = c.tail ∧
      c'.heap.length = c.heap.length := by
  have hht : c.head ≠ c.tail := by
    have hx := List.nodup_cons.mp hw.nodup
    intro he
    refine hx.1 ?_
    rw [he]
    exact List.mem_append_right _ (List.mem_cons_self _ _)
  set c1 : LRUCache K V := { c with cache := ([] : List (K × Nat)) } with hc1def
  set c2 : LRUCache K V := setNodeNext c1 c1.head (some c1.tail) with hc2def
  set c3 : LRUCache K V := setNodePrev c2 c2.tail (some c2.head) with hc3def
  have hlen2 : c2.heap.length = c.heap.length := heapLen_setNodeNext ..
  have hlen3 : c3.heap.length = c.heap.length := by
    rw [hc3def, heapLen_setNodePrev, hlen2]
  have hc3cache : c3.cache = ([] : List (K × Nat)) := rfl
  have hheadnext : (getNode c3 c.head).next = some c.tail := by
    show (getNode (setNodePrev c2 c2.tail (some c2.head)) c1.head).next = some c.tail
    rw [next_setNodePrev, getNode_setNodeNext_self c1 c1.head _ hw.headLt]
  have htailprev : (getNode c3 c.tail).prev = some c.head := by
    show (getNode (setNodePrev c2 c2.tail (some c2.head)) c2.tail).prev = some c.head
    rw [getNode_setNodePrev_self c2 c2.tail _ (hlen2 ▸ hw.tailLt)]
    rfl
  refine ⟨c3, rfl, ?_, hc3cache, rfl, rfl, rfl, hlen3⟩
  refine ⟨hw.capPos, ?_, ?_, by simp, ?_, ?_, ?_, ?_, ?_, ?_⟩
  · rw [hlen3]; exact hw.headLt
  · rw [hlen3]; exact hw.tailLt
  · show ([c.head, c.tail] : List Nat).Nodup
    simp [hht]
  · show ChainL c3 c.head [c.tail]
    exact ⟨⟨hheadnext, htailprev⟩, trivial⟩
  · rw [hc3cache]; simp
  · rw [hc3cache]; simp
  · intro p hp
    rw [hc3cache] at hp
    simp at hp
  · rw [hc3cache]; simp

/-! ### Behaviour of the constructor -/

theorem construct_fail (K V : Type) (q : ℚ) (h : ¬ q.den = 1 ∨ q ≤ 0) :
    construct K V q = .error .invalidCapacityError := by
  simp only [construct, if_pos h]

theorem construct_ok [DecidableEq K] (q : ℚ) (h1 : q.den = 1) (h2 : 0 < q) :
    ∃ c0 : LRUCache K V, construct K V q = .ok c0 ∧ InvW c0 ([] : List Nat) ∧
      c0.cache = [] ∧ c0.capacity = q.num.toNat ∧ c0.heap.length = 2 := by
  have hcond : ¬ (¬ q.den = 1 ∨ q ≤ 0) := by
    push_neg
    exact ⟨h1, h2⟩
  have hnum : 0 < q.num.toNat := by
    have hq : 0 < q.num := Rat.num_pos.mpr h2
    omega
  refine ⟨{ capacity := q.num.toNat,
            heap := [ { key := none, value := none, prev := none, next := some 1 },
                      { key := none, value := none, prev := some 0, next := none } ],
            cache := [], head := 0, tail := 1 }, ?_, ?_, rfl, rfl, rfl⟩
  · simp only [construct, if_neg hcond]
  · refine ⟨hnum, ?_, ?_, ?_, ?_, ?_, ?_, ?_, ?_, ?_⟩
    · show (0 : Nat) < 2; omega
    · show (1 : Nat) < 2; omega
    · intro i hi
      simp at hi
    · show ([0, 1] : List Nat).Nodup
      simp
    · exact ⟨⟨rfl, rfl⟩, trivial⟩
    · simp
    · simp
    · intro p hp
      simp at hp
    · show (0 : Nat) ≤ q.num.toNat
      omega

/-! ### has as a map query -/

theorem has_eq_false_iff [DecidableEq K] (c : LRUCache K V) (k : K) :
    has c k = false ↔ mapGet c.cache k = none := by
  unfold has mapHas
  cases mapGet c.cache k <;> simp

theorem has_eq_true_iff [DecidableEq K] (c : LRUCache K V) (k : K) :
    has c k = true ↔ ∃ i, mapGet c.cache k = some i := by
  unfold has mapHas
  cases mapGet c.cache k <;> simp

/-! ### put with a valid key always succeeds and stores the value -/

theorem put_valid_ok [DecidableEq K] (c : LRUCache K V) (ks : List Nat) (k : K)
    (v : Option V) (hw : InvW c ks) :
    ∃ ks' c', put c (some k) v = (.ok (), c') ∧ InvW c' ks' ∧
      c'.capacity = c.capacity ∧
      ∃ i, mapGet c'.cache k = some i ∧ (getNode c' i).value = v ∧
        (getNode c' i).key = some k := by
  rcases hmg : mapGet c.cache k with _ | i
  · by_cases hlt : c.cache.length < c.capacity
    · obtain ⟨c', hput, hw', hcache, hcap, _, _, _, hckey, hcval, _⟩ :=
        put_new_noevict_spec c ks k v hw hmg hlt
      refine ⟨_, c', hput, hw', hcap, c.heap.length, ?_, hcval, hckey⟩
      rw [hcache]
      exact mapGet_append_self c.cache k _ ((mapGet_eq_none_iff c.cache k).mp hmg)
    · have hge : c.cache.length ≥ c.capacity := Nat.le_of_not_lt hlt
      obtain ⟨ks₀, lruId, lk, a, b, c', hks, hkeylru, hcacheab, hput, hw',
        hcacheall, hcap, _, _, _, hckey, hcval, _, _⟩ :=
        put_new_evict_spec c ks k v hw hmg hge
      have hknot : k ∉ c.cache.map Prod.fst := (mapGet_eq_none_iff c.cache k).mp hmg
      have hknotab : k ∉ (a ++ b).map Prod.fst := by
        intro hmem
        refine hknot ?_
        rw [hcacheab]
        simp only [List.map_append, List.map_cons] at hmem ⊢
        rcases List.mem_append.mp hmem with hm | hm
        · exact List.mem_append_left _ hm
        · exact List.mem_append_right _ (List.mem_cons_of_mem _ hm)
      refine ⟨_, c', hput, hw', hcap, c.heap.length, ?_, hcval, hckey⟩
      rw [hcacheall]
      exact mapGet_append_self (a ++ b) k _ hknotab
  · obtain ⟨l, r, c', hks, hput, hw', hcache, hcap, _, _, _, hcval, hkeys, _⟩ :=
      put_existing_spec c ks k i v hw hmg
    refine ⟨_, c', hput, hw', hcap, i, ?_, hcval, ?_⟩
    · rw [hcache]
      exact hmg
    · rw [hkeys i]
      exact hw.keyCorr (k, i) (mapGet_mem hmg)

/-! ### Invariant preservation along any sequence of public calls -/

theorem inv_runOp [DecidableEq K] (c : LRUCache K V) (o : Op K V) (h : Inv c) :
    Inv (runOp c o) := by
  obtain ⟨ks, hw⟩ := h
  cases o with
  | put key v =>
    show Inv (put c key v).2
    cases key with
    | none => exact ⟨ks, hw⟩
    | some k =>
      obtain ⟨ks', c', hput, hw', _⟩ := put_valid_ok c ks k v hw
      rw [show (put c (some k) v).2 = c' from by rw [hput]]
      exact ⟨ks', hw'⟩
  | get k =>
    show Inv (get c k).2
    rcases hmg : mapGet c.cache k with _ | i
    · rw [show (get c k).2 = c from by rw [get_miss_eq c k hmg]]
      exact ⟨ks, hw⟩
    · obtain ⟨l, r, c', _, hget, hw', _⟩ := get_hit_spec c ks k i hw hmg
      rw [show (get c k).2 = c' from by rw [hget]]
      exact ⟨_, hw'⟩
  | tryGet k =>
    show Inv (getSafe c k).2
    rcases hmg : mapGet c.cache k with _ | i
    · rw [show (getSafe c k).2 = c from by rw [getSafe_miss_eq c k hmg]]
      exact ⟨ks, hw⟩
    · obtain ⟨l, r, c', _, hget, hw', _⟩ := get_hit_spec c ks k i hw hmg
      rw [show (getSafe c k).2 = c' from by
        rw [getSafe_of_get_ok c c' k _ hget]]
      exact ⟨_, hw'⟩
  | has k => exact ⟨ks, hw⟩
  | size => exact ⟨ks, hw⟩
  | clear =>
    show Inv (clear c).2
    obtain ⟨c', hcl, hw', _⟩ := clear_spec c ks hw
    rw [show (clear c).2 = c' from by rw [hcl]]
    exact ⟨_, hw'⟩
  | keys => exact ⟨ks, hw⟩

theorem inv_runOps [DecidableEq K] (c : LRUCache K V) (ops : List (Op K V))
    (h : Inv c) : Inv (runOps c ops) := by
  induction ops generalizing c with
  | nil => exact h
  | cons o t ih => exact ih (runOp c o) (inv_runOp c o h)

theorem inv_of_construct [DecidableEq K] (q : ℚ) (c0 : LRUCache K V)
    (h : construct K V q = .ok c0) : Inv c0 := by
  by_cases hden : q.den = 1
  · by_cases hpos : 0 < q
    · obtain ⟨c0', hcons, hw', _⟩ := construct_ok (K := K) (V := V) q hden hpos
      rw [hcons] at h
      injection h with he
      exact ⟨[], he ▸ hw'⟩
    · rw [construct_fail K V q (Or.inr (not_lt.mp hpos))] at h
      exact absurd h (by simp)
  · rw [construct_fail K V q (Or.inl hden)] at h
    exact absurd h (by simp)

/-! ### The keys listing is duplicate free -/

theorem keys_nodup_of_invW [DecidableEq K] (c : LRUCache K V) (ks : List Nat)
    (hw : InvW c ks) : (ks.map (fun i => (getNode c i).key)).Nodup := by
  have h2 : ((c.cache.map Prod.snd).map (fun i => (getNode c i).key)).Perm
      (ks.map (fun i => (getNode c i).key)) := hw.idsPerm.map _
  have h3 : (c.cache.map Prod.snd).map (fun i => (getNode c i).key)
      = c.cache.map (fun p => some p.1) := by
    rw [List.map_map]
    refine List.map_congr_left ?_
    intro p hp
    exact hw.keyCorr p hp
  have h4 : (c.cache.map (fun p => some p.1)).Nodup := by
    have he : c.cache.map (fun p => (some p.1 : Option K))
        = (c.cache.map Prod.fst).map some := by
      rw [List.map_map]
      rfl
    rw [he]
    exact hw.keysNodup.map (fun a b hab => Option.some.inj hab)
  rw [h3] at h2
  exact h2.nodup_iff.mp h4

/-- Splitting a duplicate-free list at an element is unambiguous. -/
theorem append_cons_eq_of_nodup {α : Type} :
    ∀ {l l2 r r2 : List α} {a : α}, l ++ a :: r = l2 ++ a :: r2 →
      (l ++ a :: r).Nodup → l = l2 ∧ r = r2 := by
  intro l
  induction l with
  | nil =>
    intro l2 r r2 a h hnd
    cases l2 with
    | nil =>
      refine ⟨rfl, ?_⟩
      simpa using h
    | cons b t =>
      exfalso
      simp only [List.nil_append, List.cons_append, List.cons.injEq] at h
      have hamem : a ∈ r := by
        rw [h.2]
        exact List.mem_append_right _ (List.mem_cons_self _ _)
      have hnd2 : (a :: r).Nodup := by simpa using hnd
      exact (List.nodup_cons.mp hnd2).1 hamem
  | cons x l' ih =>
    intro l2 r r2 a h hnd
    cases l2 with
    | nil =>
      exfalso
      simp only [List.nil_append, List.cons_append, List.cons.injEq] at h
      have hxmem : x ∈ l' ++ a :: r := by
        rw [h.1]
        exact List.mem_append_right _ (List.mem_cons_self _ _)
      have hnd2 : (x :: (l' ++ a :: r)).Nodup := by simpa using hnd
      exact (List.nodup_cons.mp hnd2).1 hxmem
    | cons y t =>
      simp only [List.cons_append, List.cons.injEq] at h
      obtain ⟨h1, h2⟩ := ih h.2 (List.nodup_cons.mp (by simpa using hnd)).2
      exact ⟨by rw [h.1, h1], h2⟩

/-! ### The claims -/

/-- C2: from any state reachable from `construct(capacity)` by public
operations, `size() <= capacity` holds and index and order are in
bijection (formalised by the invariant `Inv`, whose witness list is the
recency order, matched one-to-one with the map); consequently `keys()`
succeeds with a duplicate-free listing whose length is `size()`. -/
theorem claim_C2 [DecidableEq K] (q : ℚ) (c0 : LRUCache K V)
    (ops : List (Op K V)) (h : construct K V q = .ok c0) :
    Inv (runOps c0 ops) ∧
      size (runOps c0 ops) ≤ (runOps c0 ops).capacity ∧
      ∃ kl, keys (runOps c0 ops) = .ok kl ∧
        kl.length = size (runOps c0 ops) ∧ kl.Nodup := by
  have h0 := inv_of_construct q c0 h
  obtain ⟨ks, hw⟩ := inv_runOps c0 ops h0
  refine ⟨⟨ks, hw⟩, hw.sizeLe,
    ks.map (fun i => (getNode (runOps c0 ops) i).key),
    keys_spec _ ks hw, ?_, keys_nodup_of_invW _ ks hw⟩
  have h1 := hw.idsPerm.length_eq
  simp only [List.length_map] at h1 ⊢
  exact h1.symm

/-- C2 witness: a concrete run with capacity 2 over puts, a get, an
eviction and a clear. -/
theorem claim_C2_witness :
    Inv (runOps (⟨2, [⟨none, none, none, some 1⟩, ⟨none, none, some 0, none⟩],
        [], 0, 1⟩ : LRUCache Nat Nat)
      [.put (some 1) (some 10), .get 1, .put (some 2) (some 20),
        .put (some 3) (some 30), .tryGet 2, .clear, .put (some 4) (some 40)]) ∧
      size (runOps (⟨2, [⟨none, none, none, some 1⟩, ⟨none, none, some 0, none⟩],
          [], 0, 1⟩ : LRUCache Nat Nat)
        [.put (some 1) (some 10), .get 1, .put (some 2) (some 20),
          .put (some 3) (some 30), .tryGet 2, .clear, .put (some 4) (some 40)]) ≤
        (runOps (⟨2, [⟨none, none, none, some 1⟩, ⟨none, none, some 0, none⟩],
          [], 0, 1⟩ : LRUCache Nat Nat)
        [.put (some 1) (some 10), .get 1, .put (some 2) (some 20),
          .put (some 3) (some 30), .tryGet 2, .clear, .put (some 4) (some 40)]).capacity ∧
      ∃ kl, keys (runOps (⟨2, [⟨none, none, none, some 1⟩,
          ⟨none, none, some 0, none⟩], [], 0, 1⟩ : LRUCache Nat Nat)
        [.put (some 1) (some 10), .get 1, .put (some 2) (some 20),
          .put (some 3) (some 30), .tryGet 2, .clear, .put (some 4) (some 40)]) = .ok kl ∧
        kl.length = size (runOps (⟨2, [⟨none, none, none, some 1⟩,
            ⟨none, none, some 0, none⟩], [], 0, 1⟩ : LRUCache Nat Nat)
          [.put (some 1) (some 10), .get 1, .put (some 2) (some 20),
            .put (some 3) (some 30), .tryGet 2, .clear, .put (some 4) (some 40)]) ∧
        kl.Nodup :=
  claim_C2 2 _ _ rfl

/-- C3 counterexample: on a fresh capacity-2 cache, `put` with the null
key fails with the plain base-class `LRUCacheError` — whose `name` is the
same as that of any other generic cache error (such as the wrapped
internal ones) — not with a distinct `InvalidKey` error kind. -/
theorem claim_C3_counterexample :
    (put (⟨2, [⟨none, none, none, some 1⟩, ⟨none, none, some 0, none⟩],
        [], 0, 1⟩ : LRUCache Nat Nat) none (some 0)).1 =
      .error (.lruCacheError "Key cannot be null or undefined") ∧
    (JSError.lruCacheError "Key cannot be null or undefined").name =
      (JSError.lruCacheError "Error accessing key: missing links").name :=
  ⟨rfl, rfl⟩

/-- C3 (amended): `put` with a null/absent key fails with the generic
base `LRUCacheError` (message `Key cannot be null or undefined`), which
is distinguishable only as the base error class and not as a dedicated
`InvalidKey` kind; the call has no effect — the state is returned
unchanged, so the null key is not stored. -/
theorem claim_C3 [DecidableEq K] (c : LRUCache K V) (v : Option V) :
    put c none v = (.error (.lruCacheError "Key cannot be null or undefined"), c) ∧
    (JSError.lruCacheError "Key cannot be null or undefined").name =
      "LRUCacheError" :=
  ⟨rfl, rfl⟩

/-- C4: after a successful `get(k)`, `k` heads the `keys()` listing. -/
theorem claim_C4 [DecidableEq K] (c : LRUCache K V) (k : K) (hInv : Inv c)
    (hhas : has c k = true) :
    ∃ v c' kl, get c k = (.ok v, c') ∧ keys c' = .ok kl ∧
      kl.headD none = some k := by
  obtain ⟨ks, hw⟩ := hInv
  obtain ⟨i, hmg⟩ := (has_eq_true_iff c k).mp hhas
  obtain ⟨l, r, c', hks, hget, hw', _, _, _, _, _, hpay⟩ :=
    get_hit_spec c ks k i hw hmg
  have hkey : (getNode c' i).key = some k := by
    rw [(hpay i).1]
    exact hw.keyCorr (k, i) (mapGet_mem hmg)
  refine ⟨_, c', _, hget, keys_spec c' _ hw', ?_⟩
  simp only [List.map_cons, List.headD_cons]
  exact hkey

/-- C4 witness: getting key 1 from a two-entry cache where 1 is the
least recently used entry brings it to the front. -/
theorem claim_C4_witness :
    ∃ v c' kl,
      get (⟨2, [⟨none, none, none, some 3⟩, ⟨none, none, some 2, none⟩,
          ⟨some 1, some 10, some 3, some 1⟩, ⟨some 2, some 20, some 0, some 2⟩],
          [(1, 2), (2, 3)], 0, 1⟩ : LRUCache Nat Nat) 1 = (.ok v, c') ∧
      keys c' = .ok kl ∧ kl.headD none = some 1 :=
  claim_C4 _ 1 ⟨[3, 2], by decide⟩ (by decide)

/-- C7: `get` on an absent key fails with the `KeyNotFoundError` kind and
returns the state unchanged, while `getSafe` (the spec's `tryGet`) turns
exactly that failure into the normal `undefined` result with the state
also unchanged; on a present key `getSafe` returns precisely what `get`
returns, reordering included. -/
theorem claim_C7 [DecidableEq K] (c : LRUCache K V) (k : K) (hInv : Inv c) :
    (has c k = false →
      get c k = (.error .keyNotFoundError, c) ∧
      (JSError.keyNotFoundError).name = "KeyNotFoundError" ∧
      getSafe c k = (.ok none, c)) ∧
    (has c k = true →
      ∃ v c', get c k = (.ok v, c') ∧ getSafe c k = (.ok v, c')) := by
  constructor
  · intro hfalse
    have hmg := (has_eq_false_iff c k).mp hfalse
    exact ⟨get_miss_eq c k hmg, rfl, getSafe_miss_eq c k hmg⟩
  · intro htrue
    obtain ⟨ks, hw⟩ := hInv
    obtain ⟨i, hmg⟩ := (has_eq_true_iff c k).mp htrue
    obtain ⟨l, r, c', _, hget, _⟩ := get_hit_spec c ks k i hw hmg
    exact ⟨_, c', hget, getSafe_of_get_ok c c' k _ hget⟩

/-- C7 witness: on a one-entry cache, key 9 misses (get fails with the
KeyNotFoundError kind, tryGet returns the empty result, state unchanged)
and key 1 hits both ways. -/
theorem claim_C7_witness :
    ((has (⟨2, [⟨none, none, none, some 2⟩, ⟨none, none, some 2, none⟩,
      ⟨some 1, some 10, some 0, some 1⟩], [(1, 2)], 0, 1⟩ : LRUCache Nat Nat) 9 = false →
      get (⟨2, [⟨none, none, none, some 2⟩, ⟨none, none, some 2, none⟩,
      ⟨some 1, some 10, some 0, some 1⟩], [(1, 2)], 0, 1⟩ : LRUCache Nat Nat) 9 = (.error .keyNotFoundError, (⟨2, [⟨none, none, none, some 2⟩, ⟨none, none, some 2, none⟩,
      ⟨some 1, some 10, some 0, some 1⟩], [(1, 2)], 0, 1⟩ : LRUCache Nat Nat)) ∧
      (JSError.keyNotFoundError).name = "KeyNotFoundError" ∧
      getSafe (⟨2, [⟨none, none, none, some 2⟩, ⟨none, none, some 2, none⟩,
      ⟨some 1, some 10, some 0, some 1⟩], [(1, 2)], 0, 1⟩ : LRUCache Nat Nat) 9 = (.ok none, (⟨2, [⟨none, none, none, some 2⟩, ⟨none, none, some 2, none⟩,
      ⟨some 1, some 10, some 0, some 1⟩], [(1, 2)], 0, 1⟩ : LRUCache Nat Nat))) ∧
    (has (⟨2, [⟨none, none, none, some 2⟩, ⟨none, none, some 2, none⟩,
      ⟨some 1, some 10, some 0, some 1⟩], [(1, 2)], 0, 1⟩ : LRUCache Nat Nat) 9 = true →
      ∃ v c2, get (⟨2, [⟨none, none, none, some 2⟩, ⟨none, none, some 2, none⟩,
      ⟨some 1, some 10, some 0, some 1⟩], [(1, 2)], 0, 1⟩ : LRUCache Nat Nat) 9 = (.ok v, c2) ∧
        getSafe (⟨2, [⟨none, none, none, some 2⟩, ⟨none, none, some 2, none⟩,
      ⟨some 1, some 10, some 0, some 1⟩], [(1, 2)], 0, 1⟩ : LRUCache Nat Nat) 9 = (.ok v, c2))) ∧
    ((has (⟨2, [⟨none, none, none, some 2⟩, ⟨none, none, some 2, none⟩,
      ⟨some 1, some 10, some 0, some 1⟩], [(1, 2)], 0, 1⟩ : LRUCache Nat Nat) 1 = false →
      get (⟨2, [⟨none, none, none, some 2⟩, ⟨none, none, some 2, none⟩,
      ⟨some 1, some 10, some 0, some 1⟩], [(1, 2)], 0, 1⟩ : LRUCache Nat Nat) 1 = (.error .keyNotFoundError, (⟨2, [⟨none, none, none, some 2⟩, ⟨none, none, some 2, none⟩,
      ⟨some 1, some 10, some 0, some 1⟩], [(1, 2)], 0, 1⟩ : LRUCache Nat Nat)) ∧
      (JSError.keyNotFoundError).name = "KeyNotFoundError" ∧
      getSafe (⟨2, [⟨none, none, none, some 2⟩, ⟨none, none, some 2, none⟩,
      ⟨some 1, some 10, some 0, some 1⟩], [(1, 2)], 0, 1⟩ : LRUCache Nat Nat) 1 = (.ok none, (⟨2, [⟨none, none, none, some 2⟩, ⟨none, none, some 2, none⟩,
      ⟨some 1, some 10, some 0, some 1⟩], [(1, 2)], 0, 1⟩ : LRUCache Nat Nat))) ∧
    (has (⟨2, [⟨none, none, none, some 2⟩, ⟨none, none, some 2, none⟩,
      ⟨some 1, some 10, some 0, some 1⟩], [(1, 2)], 0, 1⟩ : LRUCache Nat Nat) 1 = true →
      ∃ v c2, get (⟨2, [⟨none, none, none, some 2⟩, ⟨none, none, some 2, none⟩,
      ⟨some 1, some 10, some 0, some 1⟩], [(1, 2)], 0, 1⟩ : LRUCache Nat Nat) 1 = (.ok v, c2) ∧
        getSafe (⟨2, [⟨none, none, none, some 2⟩, ⟨none, none, some 2, none⟩,
      ⟨some 1, some 10, some 0, some 1⟩], [(1, 2)], 0, 1⟩ : LRUCache Nat Nat) 1 = (.ok v, c2))) :=
  ⟨claim_C7 _ 9 ⟨[2], by decide⟩, claim_C7 _ 1 ⟨[2], by decide⟩⟩

/-- C8: construction fails with the `InvalidCapacityError` kind exactly
when the requested capacity is not a positive integer (zero, negative or
non-integral rationals included), and succeeds on every positive integer
with an empty cache: size 0 and an empty keys listing. -/
theorem claim_C8 [DecidableEq K] (q : ℚ) :
    (¬ (q.den = 1 ∧ 0 < q) → construct K V q = .error .invalidCapacityError) ∧
    (q.den = 1 → 0 < q → ∃ c0 : LRUCache K V, construct K V q = .ok c0 ∧
      size c0 = 0 ∧ keys c0 = .ok [] ∧ c0.capacity = q.num.toNat) := by
  constructor
  · intro hne
    refine construct_fail K V q ?_
    by_cases hd : q.den = 1
    · exact Or.inr (le_of_not_lt fun hp => hne ⟨hd, hp⟩)
    · exact Or.inl hd
  · intro h1 h2
    obtain ⟨c0, hcons, hw, hcache, hcap, _⟩ :=
      construct_ok (K := K) (V := V) q h1 h2
    refine ⟨c0, hcons, ?_, ?_, hcap⟩
    · show c0.cache.length = 0
      rw [hcache]
      rfl
    · have hk := keys_spec c0 [] hw
      simpa using hk

/-- C8 witness: constructing with capacities 0, -1 and 5/2 fails, and
with capacity 3 yields the empty cache. -/
theorem claim_C8_witness :
    (construct Nat Nat 0 = .error .invalidCapacityError) ∧
    (construct Nat Nat (-1) = .error .invalidCapacityError) ∧
    (construct Nat Nat ⟨5, 2, by decide, by decide⟩ = .error .invalidCapacityError) ∧
    (∃ c0 : LRUCache Nat Nat, construct Nat Nat 3 = .ok c0 ∧ size c0 = 0 ∧
      keys c0 = .ok [] ∧ c0.capacity = (3 : ℚ).num.toNat) :=
  ⟨(claim_C8 (K := Nat) (V := Nat) 0).1 (by decide),
   (claim_C8 (K := Nat) (V := Nat) (-1)).1 (by decide),
   (claim_C8 (K := Nat) (V := Nat) ⟨5, 2, by decide, by decide⟩).1 (by decide),
   (claim_C8 (K := Nat) (V := Nat) 3).2 (by decide) (by decide)⟩

/-- C1: putting a fresh key into a full cache evicts exactly the key
that was last in `keys()`: afterwards that key is absent, the new key is
present, and the size still equals the capacity. -/
theorem claim_C1 [DecidableEq K] (c : LRUCache K V) (k : K) (v : Option V)
    (hInv : Inv c) (hfull : size c = c.capacity) (habs : has c k = false) :
    ∃ kl evk c', keys c = .ok kl ∧ kl.getLastD none = some evk ∧
      put c (some k) v = (.ok (), c') ∧
      has c' evk = false ∧ has c' k = true ∧ size c' = c.capacity := by
  obtain ⟨ks, hw⟩ := hInv
  have hmg := (has_eq_false_iff c k).mp habs
  have hge : c.cache.length ≥ c.capacity := by
    show c.capacity ≤ c.cache.length
    rw [show c.cache.length = size c from rfl, hfull]
  obtain ⟨ks₀, lruId, lk, a, b, c', hks, hkeylru, hcacheab, hput, hw', hcacheall,
    hcap, _, _, _, _, _, _, hclen⟩ := put_new_evict_spec c ks k v hw hmg hge
  have hknot : k ∉ c.cache.map Prod.fst := (mapGet_eq_none_iff c.cache k).mp hmg
  have hlkmem : lk ∈ c.cache.map Prod.fst := by
    rw [hcacheab]
    simp
  have hlknotab : lk ∉ a.map Prod.fst ++ b.map Prod.fst := by
    have hnd := hw.keysNodup
    rw [hcacheab] at hnd
    simp only [List.map_append, List.map_cons] at hnd
    exact nodup_middle_not_mem lk (a.map Prod.fst) (b.map Prod.fst) hnd
  have hlkk : lk ≠ k := fun he => hknot (he ▸ hlkmem)
  have hkab : k ∉ (a ++ b).map Prod.fst := by
    intro hmem
    refine hknot ?_
    rw [hcacheab]
    simp only [List.map_append, List.map_cons] at hmem ⊢
    rcases List.mem_append.mp hmem with hm | hm
    · exact List.mem_append_left _ hm
    · exact List.mem_append_right _ (List.mem_cons_of_mem _ hm)
  refine ⟨ks.map (fun i => (getNode c i).key), lk, c', keys_spec c ks hw, ?_,
    hput, ?_, ?_, ?_⟩
  · rw [hks]
    simp only [List.map_append, List.map_cons, List.map_nil]
    rw [List.getLastD_concat]
    exact hkeylru
  · rw [has_eq_false_iff, hcacheall]
    refine (mapGet_eq_none_iff _ _).mpr ?_
    simp only [List.map_append, List.map_cons, List.map_nil]
    intro hmem
    rcases List.mem_append.mp hmem with hm | hm
    · exact hlknotab hm
    · have : lk = k := by simpa using hm
      exact hlkk this
  · rw [has_eq_true_iff]
    refine ⟨c.heap.length, ?_⟩
    rw [hcacheall]
    exact mapGet_append_self (a ++ b) k _ hkab
  · show c'.cache.length = c.capacity
    rw [hclen, show c.cache.length = size c from rfl, hfull]

/-- C5: put on an existing key replaces the value, refreshes the
recency exactly as a successful get would (identical keys listing),
keeps the size and every key presence unchanged, and `get` then yields
the new value. -/
theorem claim_C5 [DecidableEq K] (c : LRUCache K V) (k : K) (v2 : Option V)
    (hInv : Inv c) (hhas : has c k = true) :
    ∃ c', put c (some k) v2 = (.ok (), c') ∧
      size c' = size c ∧
      (∀ k' : K, has c' k' = has c k') ∧
      (get c' k).1 = .ok v2 ∧
      (∃ kl, keys c' = .ok kl ∧ kl.headD none = some k) ∧
      keys c' = keys (get c k).2 := by
  obtain ⟨ks, hw⟩ := hInv
  obtain ⟨i, hmg⟩ := (has_eq_true_iff c k).mp hhas
  obtain ⟨l, r, c', hks, hput, hw', hcache, _, _, _, _, hval, hkeys, _⟩ :=
    put_existing_spec c ks k i v2 hw hmg
  obtain ⟨l2, r2, c2, hks2, hget, hw2, hcache2, _, _, _, _, hpay2⟩ :=
    get_hit_spec c ks k i hw hmg
  have hksnodup : ks.Nodup := by
    have h1 := (List.nodup_cons.mp hw.nodup).2
    exact (List.nodup_append.mp h1).1
  have heqsplit : l ++ i :: r = l2 ++ i :: r2 := by rw [← hks, hks2]
  have hndsplit : (l ++ i :: r).Nodup := hks ▸ hksnodup
  obtain ⟨he1, he2⟩ := append_cons_eq_of_nodup heqsplit hndsplit
  have hkeyi : (getNode c i).key = some k := hw.keyCorr (k, i) (mapGet_mem hmg)
  have hmg' : mapGet c'.cache k = some i := by
    rw [hcache]
    exact hmg
  obtain ⟨l3, r3, c3, hks3, hget3, _⟩ := get_hit_spec c' (i :: (l ++ r)) k i hw' hmg'
  refine ⟨c', hput, ?_, ?_, ?_, ⟨_, keys_spec c' _ hw', ?_⟩, ?_⟩
  · show c'.cache.length = c.cache.length
    rw [hcache]
  · intro k'
    show mapHas c'.cache k' = mapHas c.cache k'
    rw [hcache]
  · rw [hget3]
    show Except.ok (getNode c' i).value = Except.ok v2
    rw [hval]
  · show ((i :: (l ++ r)).map _).headD none = some k
    simp only [List.map_cons, List.headD_cons]
    rw [hkeys i]
    exact hkeyi
  · rw [show (get c k).2 = c2 from by rw [hget]]
    rw [keys_spec c' _ hw', keys_spec c2 _ hw2]
    have hlist2 : (i :: (l2 ++ r2)) = (i :: (l ++ r)) := by rw [he1, he2]
    rw [hlist2]
    congr 1
    refine List.map_congr_left ?_
    intro j _
    rw [hkeys j, (hpay2 j).1]

/-- C6: put then get on the same valid key with no operation in between
returns exactly the value that was put (in all three put branches:
update, insert below capacity, insert with eviction). -/
theorem claim_C6 [DecidableEq K] (c : LRUCache K V) (k : K) (v : Option V)
    (hInv : Inv c) :
    ∃ c', put c (some k) v = (.ok (), c') ∧ (get c' k).1 = .ok v := by
  obtain ⟨ks, hw⟩ := hInv
  obtain ⟨ks', c', hput, hw', _, i, hmg', hval, _⟩ := put_valid_ok c ks k v hw
  obtain ⟨l, r, c'', _, hget, _⟩ := get_hit_spec c' ks' k i hw' hmg'
  refine ⟨c', hput, ?_⟩
  rw [hget]
  show Except.ok (getNode c' i).value = Except.ok v
  rw [hval]

/-- C9: on any well-formed state the defensive error branches are dead:
put with a valid key always returns cleanly, get succeeds on every
present key, tryGet never fails on any key, and clear and keys always
succeed — so no wrapped internal (InternalInconsistency-style) error can
be produced. -/
theorem claim_C9 [DecidableEq K] (c : LRUCache K V) (hInv : Inv c) :
    (∀ (k : K) (v : Option V), (put c (some k) v).1 = .ok ()) ∧
    (∀ k : K, has c k = true → ∃ v, (get c k).1 = .ok v) ∧
    (∀ k : K, ∃ rv, (getSafe c k).1 = .ok rv) ∧
    (clear c).1 = .ok () ∧
    (∃ kl, keys c = .ok kl) := by
  obtain ⟨ks, hw⟩ := hInv
  refine ⟨?_, ?_, ?_, rfl, ⟨_, keys_spec c ks hw⟩⟩
  · intro k v
    obtain ⟨ks', c', hput, _⟩ := put_valid_ok c ks k v hw
    rw [hput]
  · intro k hk
    obtain ⟨i, hmg⟩ := (has_eq_true_iff c k).mp hk
    obtain ⟨l, r, c', _, hget, _⟩ := get_hit_spec c ks k i hw hmg
    exact ⟨_, by rw [hget]⟩
  · intro k
    rcases hmg : mapGet c.cache k with _ | i
    · exact ⟨none, by rw [getSafe_miss_eq c k hmg]⟩
    · obtain ⟨l, r, c', _, hget, _⟩ := get_hit_spec c ks k i hw hmg
      exact ⟨_, by rw [getSafe_of_get_ok c c' k _ hget]⟩

/-- C10: values are not validated — `put` accepts the absent sentinel
`undefined` as a value; afterwards tryGet returns `undefined`, exactly
the result it gives for an absent key, while `has` still answers true
and `get` succeeds (returning `undefined`), so only `has` distinguishes
presence. -/
theorem claim_C10 [DecidableEq K] (c : LRUCache K V) (k : K) (hInv : Inv c) :
    ∃ c', put c (some k) none = (.ok (), c') ∧
      (getSafe c' k).1 = .ok none ∧
      has c' k = true ∧
      (get c' k).1 = .ok none ∧
      (∀ j, has c' j = false → (getSafe c' j).1 = .ok none) := by
  obtain ⟨ks, hw⟩ := hInv
  obtain ⟨ks', c', hput, hw', _, i, hmg', hval, _⟩ := put_valid_ok c ks k none hw
  obtain ⟨l, r, c'', _, hget, _⟩ := get_hit_spec c' ks' k i hw' hmg'
  have hgetv : (get c' k).1 = .ok none := by
    rw [hget]
    show Except.ok (getNode c' i).value = Except.ok none
    rw [hval]
  refine ⟨c', hput, ?_, ?_, hgetv, ?_⟩
  · rw [getSafe_of_get_ok c' c'' k _ hget]
    show Except.ok (getNode c' i).value = Except.ok none
    rw [hval]
  · exact (has_eq_true_iff c' k).mpr ⟨i, hmg'⟩
  · intro j hj
    rw [getSafe_miss_eq c' j ((has_eq_false_iff c' j).mp hj)]

/-- C1 witness: a full capacity-2 cache evicts the back key (key 1) when
key 5 is put. -/
theorem claim_C1_witness :
    ∃ kl evk c', keys (⟨2, [⟨none, none, none, some 3⟩, ⟨none, none, some 2, none⟩,
      ⟨some 1, some 10, some 3, some 1⟩, ⟨some 2, some 20, some 0, some 2⟩],
      [(1, 2), (2, 3)], 0, 1⟩ : LRUCache Nat Nat) = .ok kl ∧ kl.getLastD none = some evk ∧
      put (⟨2, [⟨none, none, none, some 3⟩, ⟨none, none, some 2, none⟩,
      ⟨some 1, some 10, some 3, some 1⟩, ⟨some 2, some 20, some 0, some 2⟩],
      [(1, 2), (2, 3)], 0, 1⟩ : LRUCache Nat Nat) (some 5) (some 50) = (.ok (), c') ∧
      has c' evk = false ∧ has c' 5 = true ∧
      size c' = (⟨2, [⟨none, none, none, some 3⟩, ⟨none, none, some 2, none⟩,
      ⟨some 1, some 10, some 3, some 1⟩, ⟨some 2, some 20, some 0, some 2⟩],
      [(1, 2), (2, 3)], 0, 1⟩ : LRUCache Nat Nat).capacity :=
  claim_C1 _ 5 (some 50) ⟨[3, 2], by decide⟩ (by decide) (by decide)

/-- C5 witness: updating existing key 1 (currently the LRU entry) in a
full capacity-2 cache moves it to the front without any eviction. -/
theorem claim_C5_witness :
    ∃ c', put (⟨2, [⟨none, none, none, some 3⟩, ⟨none, none, some 2, none⟩,
      ⟨some 1, some 10, some 3, some 1⟩, ⟨some 2, some 20, some 0, some 2⟩],
      [(1, 2), (2, 3)], 0, 1⟩ : LRUCache Nat Nat) (some 1) (some 99) = (.ok (), c') ∧
      size c' = size (⟨2, [⟨none, none, none, some 3⟩, ⟨none, none, some 2, none⟩,
      ⟨some 1, some 10, some 3, some 1⟩, ⟨some 2, some 20, some 0, some 2⟩],
      [(1, 2), (2, 3)], 0, 1⟩ : LRUCache Nat Nat) ∧
      (∀ k' : Nat, has c' k' = has (⟨2, [⟨none, none, none, some 3⟩, ⟨none, none, some 2, none⟩,
      ⟨some 1, some 10, some 3, some 1⟩, ⟨some 2, some 20, some 0, some 2⟩],
      [(1, 2), (2, 3)], 0, 1⟩ : LRUCache Nat Nat) k') ∧
      (get c' 1).1 = .ok (some 99) ∧
      (∃ kl, keys c' = .ok kl ∧ kl.headD none = some 1) ∧
      keys c' = keys (get (⟨2, [⟨none, none, none, some 3⟩, ⟨none, none, some 2, none⟩,
      ⟨some 1, some 10, some 3, some 1⟩, ⟨some 2, some 20, some 0, some 2⟩],
      [(1, 2), (2, 3)], 0, 1⟩ : LRUCache Nat Nat) 1).2 :=
  claim_C5 _ 1 (some 99) ⟨[3, 2], by decide⟩ (by decide)

/-- C6 witness: put 5 ↦ 7 into the empty capacity-2 cache and get it
back. -/
theorem claim_C6_witness :
    ∃ c', put (⟨2, [⟨none, none, none, some 1⟩, ⟨none, none, some 0, none⟩], [], 0, 1⟩ : LRUCache Nat Nat) (some 5) (some 7) = (.ok (), c') ∧
      (get c' 5).1 = .ok (some 7) :=
  claim_C6 _ 5 (some 7) ⟨[], by decide⟩

/-- C9 witness: on a one-entry cache no operation hits a defensive error
branch. -/
theorem claim_C9_witness :
    (∀ (k : Nat) (v : Option Nat), (put (⟨2, [⟨none, none, none, some 2⟩, ⟨none, none, some 2, none⟩,
      ⟨some 1, some 10, some 0, some 1⟩], [(1, 2)], 0, 1⟩ : LRUCache Nat Nat) (some k) v).1 = .ok ()) ∧
    (∀ k : Nat, has (⟨2, [⟨none, none, none, some 2⟩, ⟨none, none, some 2, none⟩,
      ⟨some 1, some 10, some 0, some 1⟩], [(1, 2)], 0, 1⟩ : LRUCache Nat Nat) k = true → ∃ v, (get (⟨2, [⟨none, none, none, some 2⟩, ⟨none, none, some 2, none⟩,
      ⟨some 1, some 10, some 0, some 1⟩], [(1, 2)], 0, 1⟩ : LRUCache Nat Nat) k).1 = .ok v) ∧
    (∀ k : Nat, ∃ rv, (getSafe (⟨2, [⟨none, none, none, some 2⟩, ⟨none, none, some 2, none⟩,
      ⟨some 1, some 10, some 0, some 1⟩], [(1, 2)], 0, 1⟩ : LRUCache Nat Nat) k).1 = .ok rv) ∧
    (clear (⟨2, [⟨none, none, none, some 2⟩, ⟨none, none, some 2, none⟩,
      ⟨some 1, some 10, some 0, some 1⟩], [(1, 2)], 0, 1⟩ : LRUCache Nat Nat)).1 = .ok () ∧
    (∃ kl, keys (⟨2, [⟨none, none, none, some 2⟩, ⟨none, none, some 2, none⟩,
      ⟨some 1, some 10, some 0, some 1⟩], [(1, 2)], 0, 1⟩ : LRUCache Nat Nat) = .ok kl) :=
  claim_C9 _ ⟨[2], by decide⟩

/-- C10 witness: storing the undefined value under key 7 of a one-entry
cache makes tryGet indistinguishable from a miss while has still holds. -/
theorem claim_C10_witness :
    ∃ c', put (⟨2, [⟨none, none, none, some 2⟩, ⟨none, none, some 2, none⟩,
      ⟨some 1, some 10, some 0, some 1⟩], [(1, 2)], 0, 1⟩ : LRUCache Nat Nat) (some 7) none = (.ok (), c') ∧
      (getSafe c' 7).1 = .ok none ∧
      has c' 7 = true ∧
      (get c' 7).1 = .ok none ∧
      (∀ j, has c' j = false → (getSafe c' j).1 = .ok none) :=
  claim_C10 _ 7 ⟨[2], by decide⟩

end LRU
